import Mathlib

/-!
Verification of the final_parser repository: an Earley engine (with Leo's
right-recursion optimization) and a compiled GLL engine with GSS and SPPF,
plus the shared tree-extraction machinery.  The definitions below are a
shallow embedding of `final_parser/Earley.py` and `final_parser/GLL.py`:
pure Lean functions mirror the Python classes statement by statement, with
mutable state passed explicitly and unbounded loops driven by fuel.
-/

/-- A grammar symbol (terminal or nonterminal); terminals are one-character
strings, nonterminals are surrounded by angle brackets (`is_nt`). -/
abbrev GSym := String

/-- `is_nt` from Earley.py: a symbol is a nonterminal iff its first and last
characters are `<` and `>`. -/
def isNt (k : GSym) : Bool :=
  k.length > 0 && k.front == '<' && k.back == '>'

/-- A grammar: ordered mapping from nonterminal to list of alternatives. -/
abbrev Grammar := List (GSym × List (List GSym))

/-- Ordered key lookup, mirroring Python `g[k]` and `k in g`. -/
def gLookup (g : Grammar) (k : GSym) : Option (List (List GSym)) :=
  match g with
  | [] => none
  | (k', alts) :: rest => if k' = k then some alts else gLookup rest k

def gMem (g : Grammar) (k : GSym) : Bool :=
  (gLookup g k).isSome

def gAlts (g : Grammar) (k : GSym) : List (List GSym) :=
  (gLookup g k).getD []

/-- An Earley item (`State` in Earley.py): `(name, expr, dot, s_col, e_col)`.
Columns are referenced by index.  `tflag` marks `TState` items produced by the
Leo optimization; like `e_col` it is not part of the identity key. -/
structure EState where
  name : GSym
  expr : List GSym
  dot : Nat
  scol : Nat
  ecol : Nat
  tflag : Bool := false
deriving Repr, DecidableEq

/-- The identity key `(name, expr, dot, s_col.index)` used by `__eq__`/`__hash__`. -/
def EState.key (s : EState) : GSym × List GSym × Nat × Nat :=
  (s.name, s.expr, s.dot, s.scol)

def EState.finished (s : EState) : Bool :=
  s.dot ≥ s.expr.length

def EState.at_dot (s : EState) : Option GSym :=
  s.expr.get? s.dot

def EState.advance (s : EState) : EState :=
  { name := s.name, expr := s.expr, dot := s.dot + 1, scol := s.scol,
    ecol := 0, tflag := false }

/-- `State.back()` (returns a `TState` with the dot moved back). -/
def EState.back (s : EState) : EState :=
  { name := s.name, expr := s.expr, dot := s.dot - 1, scol := s.scol,
    ecol := s.ecol, tflag := true }

/-- `TState.copy()` / `State.copy()`: an identical item (keeping the flag). -/
def EState.copy (s : EState) : EState := s

/-- A chart column: index, the letter read to reach it, the (append-only,
duplicate-free) item list, and the Leo transitive-item map. -/
structure Col where
  index : Nat
  letter : Option Char
  states : List EState
  transitives : List (GSym × EState) := []
deriving Repr, DecidableEq

/-- `Column.add`: ignore an item whose identity key is already present,
otherwise append it with `e_col` set to this column. -/
def Col.add (c : Col) (s : EState) : Col :=
  if c.states.any (fun t => t.key = s.key) then c
  else { c with states := c.states ++ [{ s with ecol := c.index }] }

/-- The chart: one column per input position (column 0 = nothing read). -/
abbrev EChart := List Col

def chartGet (chart : EChart) (i : Nat) : Col :=
  (chart.get? i).getD { index := i, letter := none, states := [] }

def chartSet (chart : EChart) (i : Nat) (c : Col) : EChart :=
  chart.set i c

/-! ### Nullable-set computation (`rem_terminals` / `nullable` in Earley.py) -/

/-- `rem_terminals`: keep only alternatives containing no terminal; drop
nonterminals left with no such alternative. -/
def remTerminals (g : Grammar) : Grammar :=
  g.filterMap (fun ka =>
    let alts := ka.2.filter (fun alt => alt.all (fun t => isNt t))
    if alts.isEmpty then none else some (ka.1, alts))

/-- One inner pass of `nullable`'s while-loop over a working grammar: remove
`nxt` from every alternative; an alternative that becomes empty marks its
nonterminal nullable (and the remaining alternatives of that nonterminal are
dropped, mirroring the `break`). Returns the new working grammar, the newly
marked keys in order, and the updated nullable list. -/
def nullablePassKey (nxt : GSym) (k : GSym) (alts : List (List GSym)) :
    Option (List (List GSym)) × Bool :=
  let rec go (alts : List (List GSym)) (acc : List (List GSym)) :
      Option (List (List GSym)) × Bool :=
    match alts with
    | [] => (if acc.isEmpty then none else some acc.reverse, false)
    | alt :: rest =>
        let alt' := alt.filter (fun t => t ≠ nxt)
        if alt'.isEmpty then
          (if acc.isEmpty then none else some acc.reverse, true)
        else go rest (alt' :: acc)
  go alts []

def nullablePass (nxt : GSym) (gcur : Grammar) :
    Grammar × List GSym :=
  match gcur with
  | [] => ([], [])
  | (k, alts) :: rest =>
      let (alts', marked) := nullablePassKey nxt k alts
      let (g', ks) := nullablePass nxt rest
      ((match alts' with
        | none => g'
        | some a => (k, a) :: g'),
       if marked then k :: ks else ks)

/-- The fueled while-loop of `nullable`. -/
def nullableLoop (g : Grammar) : Nat → List GSym → List GSym → Grammar → List GSym
  | 0, ns, _, _ => ns
  | _ + 1, ns, [], _ => ns
  | fuel + 1, ns, nxt :: unprocessed, gcur =>
      let (gnxt, marked) := nullablePass nxt gcur
      let ns' := ns ++ marked.filter (fun k => ¬ ns.contains k)
      nullableLoop g fuel ns' (unprocessed ++ marked) gnxt

/-- Total number of alternatives in a grammar (a fuel bound). -/
def gSize (g : Grammar) : Nat :=
  (g.map (fun ka => ka.2.length)).sum

/-- `nullable(g)`: the set (as an ordered, duplicate-free list) of nullable
nonterminals. -/
def nullableFn (g : Grammar) : List GSym :=
  let init := (g.filter (fun ka => ka.2.contains [])).map (fun ka => ka.1)
  nullableLoop g (init.length + gSize g + 1) init init (remTerminals g)

/-! ### The Earley recognizer -/

/-- `EarleyParser.predict`: seed every alternative of `sym` at this column;
if `sym` is nullable, also add the inspected item advanced by one
(Aycock–Horspool). -/
def predict (g : Grammar) (eps : List GSym) (col : Col) (sym : GSym)
    (st : EState) : Col :=
  let col := (gAlts g sym).foldl
    (fun c alt => c.add { name := sym, expr := alt, dot := 0,
                          scol := col.index, ecol := 0 }) col
  if eps.contains sym then col.add st.advance else col

/-- `EarleyParser.scan`: if the terminal at the dot equals the next column's
letter, add the advanced item there. -/
def scan (next : Col) (st : EState) (letter : GSym) : Col :=
  match next.letter with
  | some c => if letter = String.mk [c] then next.add st.advance else next
  | none => next

/-- `EarleyParser.complete` (= `earley_complete`): advance, into the current
column, every item of the finished item's start column whose symbol at the
dot is the finished item's name. -/
def earleyComplete (chart : EChart) (col : Col) (st : EState) : Col :=
  let parents := (chartGet chart st.scol).states.filter
    (fun p => p.at_dot = some st.name)
  parents.foldl (fun c p => c.add p.advance) col

/-- Process one item of column `i` (one iteration of the `fill_chart` inner
loop).  Writes back the modified current column, and possibly the next. -/
def fillStep (g : Grammar) (eps : List GSym) (chart : EChart) (i ptr : Nat) :
    EChart :=
  match (chartGet chart i).states.get? ptr with
  | none => chart
  | some st =>
      if st.finished then
        chartSet chart i (earleyComplete chart (chartGet chart i) st)
      else
        match st.at_dot with
        | none => chart
        | some sym =>
            if gMem g sym then
              chartSet chart i (predict g eps (chartGet chart i) sym st)
            else
              if i + 1 ≥ chart.length then chart
              else chartSet chart (i + 1) (scan (chartGet chart (i + 1)) st sym)

/-- Run the inner loop of `fill_chart` on column `i` until every item of the
growing list has been processed (or fuel runs out). -/
def fillCol (g : Grammar) (eps : List GSym) : Nat → EChart → Nat → Nat → EChart
  | 0, chart, _, _ => chart
  | fuel + 1, chart, i, ptr =>
      if ptr < (chartGet chart i).states.length then
        fillCol g eps fuel (fillStep g eps chart i ptr) i (ptr + 1)
      else chart

/-- `fill_chart`: process the columns left to right. -/
def fillChart (g : Grammar) (eps : List GSym) (fuel : Nat) (chart : EChart) :
    EChart :=
  (List.range chart.length).foldl (fun ch i => fillCol g eps fuel ch i 0) chart

/-- `chart_parse`: build the empty chart for `tokens`, seed column 0 with all
alternatives of the start symbol, and fill. -/
def chartParse (g : Grammar) (eps : List GSym) (fuel : Nat)
    (tokens : List Char) (start : GSym) (alts : List (List GSym)) : EChart :=
  let base : EChart :=
    ({ index := 0, letter := none, states := [] } : Col) ::
      (tokens.enum.map (fun p =>
        { index := p.1 + 1, letter := some p.2, states := [] }))
  let seeded := chartSet base 0
    (alts.foldl (fun c alt =>
      c.add { name := start, expr := alt, dot := 0, scol := 0, ecol := 0 })
      (chartGet base 0))
  fillChart g eps fuel seeded

/-- A per-parse fuel large enough for every chart of this input: the number
of distinct items of one column is at most `stateBound g * (n+1)`. -/
def stateBound (g : Grammar) : Nat :=
  (g.map (fun ka => (ka.2.map (fun alt => alt.length + 1)).sum)).sum

def defaultFuel (g : Grammar) (n : Nat) : Nat :=
  stateBound g * (n + 2) + 1

/-- The items of a column that `parse_prefix` filters for. -/
def colStartItems (g : Grammar) (start : GSym) (col : Col) : List EState :=
  col.states.filter (fun st =>
    st.name = start && (gAlts g start).contains st.expr && st.scol = 0)

/-- The `for col in reversed(self.table)` search of `parse_prefix`. -/
def pfxSearch (g : Grammar) (start : GSym) :
    List Col → Option (Nat × List EState)
  | [] => none
  | col :: rest =>
      let sts := colStartItems g start col
      if sts.isEmpty then pfxSearch g start rest else some (col.index, sts)

/-- `EarleyParser.parse_prefix`.  The cursor is `-1` when no column contains
an item named by the start symbol, with one of its alternatives, starting at
column 0. -/
def parsePfx (g : Grammar) (text : List Char) (start : GSym) :
    Int × List EState × EChart :=
  let alts := gAlts g start
  let table := chartParse g (nullableFn g) (defaultFuel g text.length)
    text start alts
  match pfxSearch g start table.reverse with
  | some (i, sts) => ((i : Int), sts, table)
  | none => (-1, [], table)

/-- Python slicing `text[cursor:]` for a possibly negative cursor. -/
def pySliceFrom (text : List Char) (cursor : Int) : List Char :=
  if cursor ≥ 0 then text.drop cursor.toNat
  else text.drop (text.length - (-cursor).toNat)

/-- `EarleyParser.recognize_on`: the list of finished start items, or (when
`parse_exceptions` is set) a `SyntaxError` carrying the unconsumed suffix. -/
def recognizeOn (g : Grammar) (pexc : Bool) (text : List Char) (start : GSym) :
    Except (List Char) (List EState × EChart) :=
  let (cursor, states, table) := parsePfx g text start
  let starts := states.filter (fun s => s.finished)
  if pexc && (cursor < (text.length : Int) || starts.isEmpty) then
    .error (pySliceFrom text cursor)
  else .ok (starts, table)

/-! ### Parse forest and tree extraction (Earley) -/

/-- A path entry: a completed chart item (kind `'n'`) or a terminal (kind `'t'`). -/
inductive PEnt where
  | st (s : EState)
  | tm (t : GSym)
deriving Repr, DecidableEq

/-- `parse_paths` on the reversed expression (the Python walks the rule
right-to-left); returns paths in reversed symbol order, as the source does. -/
def parsePathsRev (g : Grammar) (chart : EChart) (frm : Nat) :
    List GSym → Nat → List (List PEnt)
  | [], _ => []
  | var :: revRest, til =>
      let starts : List (PEnt × Nat) :=
        if ¬ gMem g var then
          match (chartGet chart til).letter with
          | some c =>
              if til > 0 && var = String.mk [c] then
                [(.tm var, til - var.length)] else []
          | none => []
        else
          ((chartGet chart til).states.filter
            (fun s => s.finished && s.name = var)).map
            (fun s => (.st s, s.scol))
      starts.bind (fun es =>
        if revRest.isEmpty then
          if es.2 = frm then [[es.1]] else []
        else (parsePathsRev g chart frm revRest es.2).map (fun r => es.1 :: r))

def parsePaths (g : Grammar) (chart : EChart) (expr : List GSym)
    (frm til : Nat) : List (List PEnt) :=
  parsePathsRev g chart frm expr.reverse til

/-- A forest node `(name, list of paths)`; each path is in forward order
(`_parse_forest` reverses the `parse_paths` output). -/
abbrev ForestNode := GSym × List (List PEnt)

/-- `_parse_forest` for a single completed item. -/
def parseForest1 (g : Grammar) (chart : EChart) (s : EState) : ForestNode :=
  (s.name,
   if s.expr.isEmpty then []
   else (parsePaths g chart s.expr s.scol s.ecol).map List.reverse)

/-- `parse_forest`: all start items must share one name (the `assert`);
`none` models the assertion failure (in particular on an empty item list). -/
def parseForest (g : Grammar) (chart : EChart) (states : List EState) :
    Option ForestNode :=
  match states with
  | [] => none
  | s0 :: _ =>
      if states.all (fun s => s.name = s0.name) then
        some (s0.name, states.bind (fun s => (parseForest1 g chart s).2))
      else none

/-- `forest(s, kind, chart)`. -/
def forestOf (g : Grammar) (chart : EChart) : PEnt → ForestNode
  | .st s => parseForest1 g chart s
  | .tm t => (t, [])

/-- A derivation tree `(symbol, children)`. -/
inductive PTree where
  | node (name : GSym) (children : List PTree)
deriving Repr

def PTree.name : PTree → GSym
  | .node n _ => n

def PTree.children : PTree → List PTree
  | .node _ c => c

mutual

def PTree.decEq : (t u : PTree) → Decidable (t = u)
  | .node a as, .node b bs =>
      if h : a = b then
        match PTree.decEqL as bs with
        | isTrue h2 => isTrue (by rw [h, h2])
        | isFalse h2 => isFalse (fun hh => h2 (by cases hh; rfl))
      else isFalse (fun hh => h (by cases hh; rfl))

def PTree.decEqL : (ts us : List PTree) → Decidable (ts = us)
  | [], [] => isTrue rfl
  | [], _ :: _ => isFalse (by simp)
  | _ :: _, [] => isFalse (by simp)
  | t :: ts, u :: us =>
      match PTree.decEq t u, PTree.decEqL ts us with
      | isTrue h1, isTrue h2 => isTrue (by rw [h1, h2])
      | isFalse h1, _ => isFalse (fun hh => h1 (by cases hh; rfl))
      | isTrue _, isFalse h2 => isFalse (fun hh => h2 (by cases hh; rfl))

end

instance : DecidableEq PTree := PTree.decEq

/-- `itertools.product`, leftmost factor varying slowest. -/
def listProd : List (List α) → List (List α)
  | [] => [[]]
  | l :: ls => l.bind (fun x => (listProd ls).map (fun r => x :: r))

/-- The (eager) `extract_trees` generator, as the list of the trees it
yields; `fuel` bounds the recursion depth (the Python recurses without
bound and diverges on cyclic forests). -/
def extractTrees (g : Grammar) (chart : EChart) :
    Nat → ForestNode → List PTree
  | 0, _ => []
  | fuel + 1, (name, paths) =>
      if paths.isEmpty then [.node name []]
      else
        paths.bind (fun path =>
          let ptrees := path.map
            (fun p => extractTrees g chart fuel (forestOf g chart p))
          (listProd ptrees).map (fun c => .node name c))

mutual

/-- `tree_to_str`: concatenate the terminal leaves in pre-order. -/
def treeToStr : PTree → String
  | .node k c => if isNt k then treeToStrL c else k

def treeToStrL : List PTree → String
  | [] => ""
  | t :: ts => treeToStr t ++ treeToStrL ts

end

/-- Errors that can escape `parse_on`: a syntax error carrying the
unconsumed suffix, or the `assert len(names) == 1` failure of
`parse_forest`. -/
inductive ParseErr where
  | syn (suffix : List Char)
  | assertFail
deriving Repr, DecidableEq

/-- `EarleyParser.parse_on`, with the trees the generator yields collected
into a list (up to the extraction fuel). -/
def parseOn (g : Grammar) (pexc : Bool) (fuel : Nat) (text : List Char)
    (start : GSym) : Except ParseErr (List PTree) :=
  match recognizeOn g pexc text start with
  | .error sfx => .error (.syn sfx)
  | .ok (starts, table) =>
      match parseForest g table starts with
      | none => .error .assertFail
      | some forest => .ok (extractTrees g table fuel forest)

/-! ### The enhanced extractor (Earley side) -/

/-- One `ChoiceNode` record: `(chosen, total)`.  The linked list rooted at
the extractor's `choices` field is modelled as a list of records, the root
at position 0; a node's `next` pointer is the following list entry. -/
abbrev CRec := Nat × Nat

def crecFinished (r : CRec) : Bool := r.1 ≥ r.2

/-- `choose_path`: follow (or create) the `next` record of the node at
depth `d` and pick the element it selects; `none` signals an exhausted
record. -/
def choosePath (arr : List α) (chain : List CRec) (d : Nat) :
    Option α × Nat × List CRec :=
  match chain.get? (d + 1) with
  | some r =>
      if crecFinished r then (none, d + 1, chain)
      else (arr.get? r.1, d + 1, chain)
  | none =>
      let chain' := chain.take (d + 1) ++ [(0, arr.length)]
      (arr.get? 0, d + 1, chain')

/-- `ChoiceNode.increment` on the node at depth `d`: invalidate deeper
records, bump the counter, and propagate to the parent when exhausted. -/
def incChain (chain : List CRec) : Nat → List CRec
  | 0 =>
      let e := chain.getD 0 (0, 0)
      [(e.1 + 1, e.2)]
  | d + 1 =>
      let e := chain.getD (d + 1) (0, 0)
      if e.1 + 1 ≥ e.2 then incChain chain d
      else chain.take (d + 1) ++ [(e.1 + 1, e.2)]

def rootFinished (chain : List CRec) : Bool :=
  crecFinished (chain.getD 0 (0, 0))

/-- `EnhancedExtractor.extract_a_node` (Earley).  The result is `none` when
the recursion fuel is exhausted (the Python recursion is unbounded);
otherwise it carries the optional tree, the depth of the choice node
reached, and the updated chain. -/
def eeNode (g : Grammar) (chart : EChart) :
    Nat → ForestNode → List (GSym × Nat × Nat) → Nat → List CRec →
    Option (Option PTree × Nat × List CRec)
  | 0, _, _, _, _ => none
  | fuel + 1, (name, paths), seen, d, chain =>
      if paths.isEmpty then some (some (.node name []), d, chain)
      else
        match choosePath paths chain d with
        | (none, d', chain') => some (none, d', chain')
        | (some curPath, d', chain') =>
            let step :
                Option (Option (List PTree) × Nat × List CRec) → PEnt →
                Option (Option (List PTree) × Nat × List CRec) :=
              fun state ent =>
                match state with
                | none => none
                | some (none, dd, ch) => some (none, dd, ch)
                | some (some acc, dd, ch) =>
                    match ent with
                    | .tm t => some (some (.node t [] :: acc), dd, ch)
                    | .st s =>
                        let nid := (s.name, s.scol, s.ecol)
                        if seen.contains nid then some (none, dd, ch)
                        else
                          match eeNode g chart fuel (parseForest1 g chart s)
                              (nid :: seen) dd ch with
                          | none => none
                          | some (none, dd2, ch2) => some (none, dd2, ch2)
                          | some (some t, dd2, ch2) =>
                              some (some (t :: acc), dd2, ch2)
            match curPath.foldl step (some (some [], d', chain')) with
            | none => none
            | some (none, dd, ch) => some (none, dd, ch)
            | some (some acc, dd, ch) =>
                some (some (.node name acc.reverse), dd, ch)

/-- `EnhancedExtractor.extract_a_tree` (Earley): repeat traversals,
incrementing the choice chain, until a tree is produced or the root record
is exhausted.  Returns the tree (or `none` = "no more trees") and the chain
with which the next call would start; the outer `Option` is fuel
exhaustion. -/
def eeTree (g : Grammar) (chart : EChart) (forest : ForestNode)
    (nodeFuel : Nat) : Nat → List CRec → Option (Option PTree × List CRec)
  | 0, _ => none
  | fuel + 1, chain =>
      if rootFinished chain then some (none, chain)
      else
        match eeNode g chart nodeFuel forest [] 0 chain with
        | none => none
        | some (pt, d, chain') =>
            let chain'' := incChain chain' d
            match pt with
            | some t => some (some t, chain'')
            | none => eeTree g chart forest nodeFuel fuel chain''

/-- The initial choice chain: `ChoiceNode(None, 1)`. -/
def chain0 : List CRec := [(0, 1)]

/-- `EnhancedExtractor.__init__` (Earley): parse and build the forest;
`none` models the `SyntaxError`. -/
def eeInit (g : Grammar) (text : List Char) (start : GSym) :
    Option (ForestNode × EChart) :=
  let (cursor, states, table) := parsePfx g text start
  let starts := states.filter (fun s => s.finished)
  if cursor < (text.length : Int) || starts.isEmpty then none
  else (parseForest g table starts).map (fun f => (f, table))

/-- Enumerate the trees produced by repeated `extract_a_tree()` calls until
it answers "no more trees". -/
def eeAll (g : Grammar) (chart : EChart) (forest : ForestNode)
    (nodeFuel : Nat) : Nat → List CRec → Option (List PTree)
  | 0, _ => none
  | fuel + 1, chain =>
      match eeTree g chart forest nodeFuel (fuel + 1) chain with
      | none => none
      | some (none, _) => some []
      | some (some t, chain') =>
          (eeAll g chart forest nodeFuel fuel chain').map (fun ts => t :: ts)


/-! ### The GLL engine (GLL.py): GSS, SPPF, and the compiled driver

The driver produced by `compile_grammar` is a dispatch loop over grammar
slots (one case per dot position, one entry case per nonterminal, plus the
distinguished labels `L0` and `L_`); the embedding below interprets exactly
those generated cases for an arbitrary grammar.  Python objects compare by
label throughout (GSS nodes, SPPF nodes), so nodes are represented by their
label keys. -/

/-- A grammar slot `(X, alt_index, dot)`. -/
abbrev Slot := GSym × Nat × Nat

/-- A GSS node label: the bottom `('L0', 0)` or a return slot. -/
inductive GLbl where
  | l0
  | ret (s : Slot)
deriving Repr, DecidableEq

/-- A GSS node key `(label, input_index)`. -/
abbrev GKey := GLbl × Nat

def gssBottom : GKey := (.l0, 0)

/-- The label part of an SPPF node key: symbol, intermediate, dummy
(`None` for ε, `'$'` for the end-of-rule marker — and, by the same
`sppf_find_or_create` test, for any scanned `'$'` terminal), or packed. -/
inductive SLbl where
  | sym (x : GSym)
  | mid (s : Slot)
  | dmy (x : Option GSym)
  | pk (s : Slot) (k : Nat)
deriving Repr, DecidableEq

/-- An SPPF node key `(label, left_extent, right_extent)`. -/
abbrev SKey := SLbl × Nat × Nat

def endRule : SKey := (.dmy (some "$"), 0, 0)

/-- The mutable GLL parser state: FIFO descriptor queue, the per-index
descriptor sets `U` (flattened), GSS edges and popped sets, and the SPPF
node store (each node with its ordered child list). -/
structure GllSt where
  threads : List (Slot × GKey × Nat × SKey)
  descrU : List (Nat × Slot × GKey × SKey)
  gssChildren : List (GKey × List (GKey × SKey))
  gssP : List (GKey × List SKey)
  sppf : List (SKey × List SKey)
deriving Repr

def lookupA [DecidableEq κ] (l : List (κ × α)) (k : κ) : Option α :=
  match l with
  | [] => none
  | (k', v) :: rest => if k' = k then some v else lookupA rest k

def setA [DecidableEq κ] (l : List (κ × α)) (k : κ) (v : α) : List (κ × α) :=
  l.map (fun e => if e.1 = k then (k, v) else e)

/-- `sppf_find_or_create`'s label classification: `None` and `'$'` become
dummy nodes, any other string a symbol node (slots become intermediate
nodes, handled separately). -/
def sppfTLbl (x : Option GSym) : SLbl :=
  match x with
  | none => .dmy none
  | some s => if s = "$" then .dmy (some "$") else .sym s

def sppfFindOrCreate (st : GllSt) (lbl : SLbl) (j i : Nat) : GllSt × SKey :=
  let key : SKey := (lbl, j, i)
  if (lookupA st.sppf key).isSome then (st, key)
  else ({ st with sppf := st.sppf ++ [(key, [])] }, key)

/-- `getNodeT(x, i)`. -/
def getNodeT (st : GllSt) (x : Option GSym) (i : Nat) : GllSt × SKey :=
  let j := match x with | none => i | some _ => i + 1
  sppfFindOrCreate st (sppfTLbl x) i j

/-- `not_dummy`: a node whose label's first component is `'$'` is treated
as the dummy. -/
def notDummy (w : SKey) : Bool :=
  w.1 ≠ .dmy (some "$")

/-- `is_non_nullable_alpha` (using the `get_first_and_follow` nullable set). -/
def isNonNullableAlpha (nulls : List GSym) (alpha : List GSym) : Bool :=
  match alpha with
  | [a] => if ¬ isNt a then true else ¬ nulls.contains a
  | _ => false

/-- The parent label `getNodeP` computes for a slot (a function of the
grammar and the slot alone). -/
def tOf (g : Grammar) (slot : Slot) : SLbl :=
  let rule := ((gAlts g slot.1).get? slot.2.1).getD []
  if (rule.drop slot.2.2).isEmpty then .sym slot.1 else .mid slot

/-- `getNodeP(X ::= α·β, w, z)`. -/
def getNodeP (g : Grammar) (nulls : List GSym) (st : GllSt) (slot : Slot)
    (w z : SKey) : GllSt × SKey :=
  let X := slot.1
  let rule := ((gAlts g X).get? slot.2.1).getD []
  let alpha := rule.take slot.2.2
  let beta := rule.drop slot.2.2
  if isNonNullableAlpha nulls alpha && !beta.isEmpty then (st, z)
  else
    let t : SLbl := tOf g slot
    let k := z.2.1
    let i := z.2.2
    let jc : Nat × List SKey :=
      if notDummy w then (w.2.1, [w, z]) else (k, [z])
    let (st, ykey) := sppfFindOrCreate st t jc.1 i
    let ykids := (lookupA st.sppf ykey).getD []
    if ykids.any (fun c => c.1 = .pk slot k) then (st, ykey)
    else
      let pnKey : SKey := (.pk slot k, jc.1, i)
      let st := { st with sppf := st.sppf ++ [(pnKey, jc.2)] }
      let st := { st with sppf := setA st.sppf ykey (ykids ++ [pnKey]) }
      (st, ykey)

/-- `add_thread` (`add`): deduplicate against `U` then enqueue. -/
def addThread (st : GllSt) (L : Slot) (u : GKey) (i : Nat) (w : SKey) :
    GllSt :=
  if st.descrU.contains (i, L, u, w) then st
  else { st with descrU := st.descrU ++ [(i, L, u, w)],
                 threads := st.threads ++ [(L, u, i, w)] }

/-- `GSS.get`: create the node (with empty edge and popped sets) if absent. -/
def gssGet (st : GllSt) (k : GKey) : GllSt :=
  if (lookupA st.gssChildren k).isSome then st
  else { st with gssChildren := st.gssChildren ++ [(k, [])],
                 gssP := st.gssP ++ [(k, [])] }

/-- `register_return` (`create`). -/
def registerReturn (g : Grammar) (nulls : List GSym) (st : GllSt) (L : Slot)
    (u : GKey) (i : Nat) (w : SKey) : GllSt × GKey :=
  let v : GKey := (.ret L, i)
  let st := gssGet st v
  let kids := (lookupA st.gssChildren v).getD []
  if kids.any (fun cw => cw.1 = u && cw.2 = w) then (st, v)
  else
    let st := { st with gssChildren := setA st.gssChildren v (kids ++ [(u, w)]) }
    let ps := (lookupA st.gssP v).getD []
    let st := ps.foldl (fun st z =>
      let (st, y) := getNodeP g nulls st L w z
      addThread st L u z.2.2 y) st
    (st, v)

/-- `fn_return` (`pop`). -/
def fnReturn (g : Grammar) (nulls : List GSym) (st : GllSt) (u : GKey)
    (i : Nat) (z : SKey) : GllSt :=
  if u = gssBottom then st
  else
    match u.1 with
    | .l0 => st
    | .ret L =>
        let st := { st with gssP := setA st.gssP u ((lookupA st.gssP u).getD [] ++ [z]) }
        let kids := (lookupA st.gssChildren u).getD []
        kids.foldl (fun st cw =>
          let (st, y) := getNodeP g nulls st L cw.2 z
          addThread st L cw.1 i y) st

/-- The nullable set of `get_first_and_follow` (GLL.py): computed over the
nonterminals occurring on right-hand sides, iterated to the fixed point. -/
def nullGLLPass (prods : List (GSym × List GSym)) (ns : List GSym) :
    List GSym :=
  prods.foldl (fun ns kr =>
    if kr.2.all (fun t => ns.contains t) && ¬ ns.contains kr.1 then
      ns ++ [kr.1]
    else ns) ns

def rhsNonterminals (g : Grammar) : List GSym :=
  ((g.bind (fun ka => ka.2.join)).filter (fun t => isNt t)).dedup

def nullableGLL (g : Grammar) : List GSym :=
  let nts := rhsNonterminals g
  let prods := nts.bind (fun k => (gAlts g k).map (fun r => (k, r)))
  (List.range (prods.length + 1)).foldl (fun ns _ => nullGLLPass prods ns) []

/-- One machine label of the compiled driver. -/
inductive MLbl where
  | l0
  | lret
  | ent (x : GSym)
  | slt (s : Slot)
deriving Repr, DecidableEq

structure GConf where
  L : MLbl
  stack : GKey
  idx : Nat
  w : SKey
deriving Repr

inductive GRes where
  | accept
  | reject
  | oof
  | crash
deriving Repr, DecidableEq

/-- One step of the compiled dispatch loop (the `while True` over labels in
the code generated by `compile_grammar`). -/
def gllStep (g : Grammar) (nulls : List GSym) (start : GSym) (I : List Char)
    (m : Nat) (st : GllSt) (conf : GConf) : (GllSt × GConf) ⊕ GRes :=
  match conf.L with
  | .l0 =>
      match st.threads with
      | (L, u, i, w) :: rest =>
          .inl ({ st with threads := rest }, ⟨.slt L, u, i, w⟩)
      | [] =>
          if (lookupA st.sppf (.sym start, 0, m)).isSome then .inr .accept
          else .inr .reject
  | .lret =>
      .inl (fnReturn g nulls st conf.stack conf.idx conf.w,
            { conf with L := .l0 })
  | .ent X =>
      match gLookup g X with
      | none => .inr .crash
      | some alts =>
          let st := (List.range alts.length).foldl
            (fun st n => addThread st (X, n, 0) conf.stack conf.idx endRule) st
          .inl (st, { conf with L := .l0 })
  | .slt (X, nalt, dot) =>
      let rule := ((gAlts g X).get? nalt).getD []
      if rule.isEmpty then
        let (st, right) := getNodeT st none conf.idx
        let (st, w') := getNodeP g nulls st (X, nalt, 0) conf.w right
        .inl (st, ⟨.lret, conf.stack, conf.idx, w'⟩)
      else if dot = rule.length then
        .inl (st, { conf with L := .lret })
      else
        match rule.get? dot with
        | none => .inr .crash
        | some tok =>
            if isNt tok then
              let (st, v) := registerReturn g nulls st (X, nalt, dot + 1)
                conf.stack conf.idx conf.w
              .inl (st, ⟨.ent tok, v, conf.idx, conf.w⟩)
            else
              match I.get? conf.idx with
              | none => .inr .crash
              | some c =>
                  if tok = String.mk [c] then
                    let (st, right) := getNodeT st (some tok) conf.idx
                    let (st, w') := getNodeP g nulls st (X, nalt, dot + 1)
                      conf.w right
                    .inl (st, ⟨.slt (X, nalt, dot + 1), conf.stack,
                               conf.idx + 1, w'⟩)
                  else .inl (st, { conf with L := .l0 })

def gllLoop (g : Grammar) (nulls : List GSym) (start : GSym) (I : List Char)
    (m : Nat) : Nat → GllSt → GConf → GRes × GllSt
  | 0, st, _ => (.oof, st)
  | fuel + 1, st, conf =>
      match gllStep g nulls start I m st conf with
      | .inl (st', conf') => gllLoop g nulls start I m fuel st' conf'
      | .inr r => (r, st)

/-- The initial parser state after `initialize` plus the creation of
`end_rule`. -/
def gllInitSt : GllSt :=
  { threads := [], descrU := [],
    gssChildren := [(gssBottom, [])], gssP := [(gssBottom, [])],
    sppf := [(endRule, [])] }

/-- `recognize_on` of the compiled parser: run the dispatch loop from the
start symbol's entry label. -/
def gllRecognize (g : Grammar) (fuel : Nat) (text : List Char)
    (start : GSym) : GRes × GllSt :=
  gllLoop g (nullableGLL g) start (text ++ ['$']) text.length fuel
    gllInitSt ⟨.ent start, gssBottom, 0, endRule⟩

/-! ### The enhanced extractor (GLL side, over the SPPF) -/

/-- Result of one `extract_a_node` call on the SPPF: fuel ran out, an
assertion fired, or a value (`none` = in-band failure) with the reached
choice depth and updated chain. -/
inductive GXR where
  | oof
  | asrt
  | val (v : Option (Option GSym × List PTree)) (d : Nat) (ch : List CRec)
deriving Repr, DecidableEq

/-- `EnhancedExtractor.extract_a_node` (GLL.py), dispatching on the node
kind; `seen` holds the identities of the nodes on the current path. -/
def gxNode (sppf : List (SKey × List SKey)) :
    Nat → SKey → List SKey → Nat → List CRec → GXR
  | 0, _, _, _, _ => .oof
  | fuel + 1, key, seen, d, chain =>
      let kids := (lookupA sppf key).getD []
      match key.1 with
      | .dmy _ => .val (some (some "", [])) d chain
      | .pk _ _ =>
          let step : GXR → SKey → GXR :=
            fun state n =>
              match state with
              | .oof => .oof
              | .asrt => .asrt
              | .val none dd ch => .val none dd ch
              | .val (some (_, acc)) dd ch =>
                  match gxNode sppf fuel n seen dd ch with
                  | .oof => .oof
                  | .asrt => .asrt
                  | .val none dd2 ch2 => .val none dd2 ch2
                  | .val (some (vk, vc)) dd2 ch2 =>
                      match n.1 with
                      | .pk _ _ =>
                          if vk.isNone then
                            .val (some (none, acc ++ vc)) dd2 ch2
                          else .asrt
                      | .sym _ =>
                          match vk with
                          | some x =>
                              .val (some (none, acc ++ [.node x vc])) dd2 ch2
                          | none => .asrt
                      | .mid _ =>
                          if vk.isNone then
                            .val (some (none, acc ++ vc)) dd2 ch2
                          else .asrt
                      | .dmy _ => .asrt
          kids.foldl step (.val (some (none, [])) d chain)
      | .mid _ =>
          if kids.isEmpty then .val (some (none, [])) d chain
          else
            match choosePath kids chain d with
            | (none, _, _) => .asrt
            | (some cur, d', ch') =>
                if seen.contains cur then .val none d' ch'
                else
                  match gxNode sppf fuel cur (cur :: seen) d' ch' with
                  | .oof => .oof
                  | .asrt => .asrt
                  | .val none dd2 ch2 => .val none dd2 ch2
                  | .val (some vv) dd2 ch2 => .val (some (none, vv.2)) dd2 ch2
      | .sym x =>
          if kids.isEmpty then .val (some (some x, [])) d chain
          else
            match choosePath kids chain d with
            | (none, d', ch') => .val none d' ch'
            | (some cur, d', ch') =>
                if seen.contains cur then .val none d' ch'
                else
                  match gxNode sppf fuel cur (cur :: seen) d' ch' with
                  | .oof => .oof
                  | .asrt => .asrt
                  | .val none dd2 ch2 => .val none dd2 ch2
                  | .val (some (vk, vc)) dd2 ch2 =>
                      if vk.isNone then .val (some (some x, vc)) dd2 ch2
                      else .asrt

/-- Result of `extract_a_tree` on the SPPF. -/
inductive GTRes where
  | oof
  | asrt
  | res (t : Option PTree) (chain : List CRec)
deriving Repr, DecidableEq

/-- `EnhancedExtractor.extract_a_tree` (GLL.py). -/
def gxTree (sppf : List (SKey × List SKey)) (root : SKey) (nodeFuel : Nat) :
    Nat → List CRec → GTRes
  | 0, _ => .oof
  | fuel + 1, chain =>
      if rootFinished chain then .res none chain
      else
        match gxNode sppf nodeFuel root [] 0 chain with
        | .oof => .oof
        | .asrt => .asrt
        | .val v d ch' =>
            let ch'' := incChain ch' d
            match v with
            | some (vk, vc) => .res (some (.node (vk.getD "") vc)) ch''
            | none => gxTree sppf root nodeFuel fuel ch''

inductive GAllRes where
  | oof
  | asrt
  | trees (ts : List PTree)
deriving Repr, DecidableEq

/-- Enumerate successive `extract_a_tree()` results until "no more trees". -/
def gxAll (sppf : List (SKey × List SKey)) (root : SKey) (nodeFuel : Nat) :
    Nat → List CRec → GAllRes
  | 0, _ => .oof
  | fuel + 1, chain =>
      match gxTree sppf root nodeFuel (fuel + 1) chain with
      | .oof => .oof
      | .asrt => .asrt
      | .res none _ => .trees []
      | .res (some t) chain' =>
          match gxAll sppf root nodeFuel fuel chain' with
          | .oof => .oof
          | .asrt => .asrt
          | .trees ts => .trees (t :: ts)

/-- The SPPF root key `(start, 0, |text|)` recorded on success. -/
def gllRoot (start : GSym) (m : Nat) : SKey := (.sym start, 0, m)

/-! ### Leo's right-recursion optimization (`LeoParser`) -/

/-- The `_postdots` back-link map, keyed by item identity. -/
abbrev Postdots := List ((GSym × List GSym × Nat × Nat) × EState)

def setPd (pd : Postdots) (k : GSym × List GSym × Nat × Nat) (v : EState) :
    Postdots :=
  if (lookupA pd k).isSome then setA pd k v else pd ++ [(k, v)]

/-- `LeoParser.uniq_postdot` (the chain-tracking version): the unique item
of the start column with the dot immediately before `st_A.name` and at the
last position of its alternative, recording the back link when found. -/
def uniqPostdotF (chart : EChart) (pd : Postdots) (stA : EState) :
    Postdots × Option EState :=
  let col := chartGet chart stA.scol
  let parents := col.states.filter
    (fun s => !s.expr.isEmpty && s.at_dot = some stA.name)
  if parents.length > 1 then (pd, none)
  else
    match parents.filter (fun s => s.dot = s.expr.length - 1) with
    | [] => (pd, none)
    | b :: _ => (setPd pd b.key stA, some b)

/-- `Column.add_transitive` (creating a `TState`). -/
def addTransitive (chart : EChart) (colIdx : Nat) (key : GSym)
    (st : EState) : EChart × EState :=
  let c := chartGet chart colIdx
  let t := { st with tflag := true }
  (chartSet chart colIdx { c with transitives := c.transitives ++ [(key, t)] },
   t)

/-- Result of `get_top`: fuel exhaustion (the Python recursion is unbounded
and genuinely diverges on cyclic chains), or the updated chart/back-links
and the optional transitive item. -/
inductive GTop where
  | oof
  | val (chart : EChart) (pd : Postdots) (r : Option EState)
deriving Repr, DecidableEq

/-- `LeoParser.get_top`. -/
def getTopF : Nat → EChart → Postdots → EState → GTop
  | 0, _, _, _ => .oof
  | fuel + 1, chart, pd, stA =>
      match uniqPostdotF chart pd stA with
      | (pd, none) => .val chart pd none
      | (pd, some stBinc) =>
          let tname := stBinc.name
          match lookupA (chartGet chart stBinc.ecol).transitives tname with
          | some memo => .val chart pd (some memo)
          | none =>
              match getTopF fuel chart pd stBinc.advance with
              | .oof => .oof
              | .val chart pd r =>
                  let top := r.getD stBinc.advance
                  let ct := addTransitive chart stBinc.ecol tname top
                  .val ct.1 pd (some ct.2)

/-- `LeoParser.leo_complete` (`deterministic_reduction` is `get_top`):
add a copy of the transitive item when one exists, otherwise fall back to
the standard completion.  `none` = `get_top` ran out of fuel. -/
def leoCompleteF (fuel : Nat) (chart : EChart) (pd : Postdots) (i : Nat)
    (st : EState) : Option (EChart × Postdots) :=
  match getTopF fuel chart pd st with
  | .oof => none
  | .val chart pd r =>
      match r with
      | some detred =>
          some (chartSet chart i ((chartGet chart i).add detred.copy), pd)
      | none =>
          some (chartSet chart i
            (earleyComplete chart (chartGet chart i) st), pd)

/-! ### Concrete grammars used by the claim theorems -/

/-- `<S> → a b`. -/
def exGab : Grammar := [("<S>", [["a", "b"]])]

/-- `<S> → a`. -/
def exGa : Grammar := [("<S>", [["a"]])]

/-- `<S> → a | a` (duplicate alternatives, allowed by the data model). -/
def exGdup : Grammar := [("<S>", [["a"], ["a"]])]

/-- The spec's cyclic unit-production grammar `<A> → <B> | a; <B> → <A>`. -/
def exGcyc : Grammar := [("<A>", [["<B>"], ["a"]]), ("<B>", [["<A>"]])]

/-- A cyclic unit-production grammar with a duplicated alternative. -/
def exGcycDup : Grammar :=
  [("<A>", [["<B>"], ["a"], ["a"]]), ("<B>", [["<A>"]])]

/-- `<S> → $ a`: the terminal `'$'` collides with GLL's reserved marker. -/
def exGdollar : Grammar := [("<S>", [["$", "a"]])]

/-- An item of the kind `parse_prefix` filters for: named by the start
symbol, carrying one of its alternatives, starting at column 0. -/
def isStartItem (g : Grammar) (start : GSym) (st : EState) : Prop :=
  st.name = start ∧ st.expr ∈ gAlts g start ∧ st.scol = 0

/-- Within one SPPF parent, no two packed children share `(slot, k)`. -/
def kidsUniq (kids : List SKey) : Prop :=
  ∀ s k, (kids.filter (fun c => c.1 = .pk s k)).length ≤ 1

/-- The C9 invariant over the SPPF store: every symbol or intermediate node
has pairwise-distinct packed-child labels. -/
def sppfInv (sppf : List (SKey × List SKey)) : Prop :=
  ∀ p ∈ sppf, (∀ x, p.1.1 ≠ SLbl.dmy x) → (∀ s k, p.1.1 ≠ SLbl.pk s k) →
    kidsUniq p.2

/-- Store keys are unique (each label allocated once). -/
def sppfKeysNodup (sppf : List (SKey × List SKey)) : Prop :=
  (sppf.map (fun p => p.1)).Nodup

/-- Every packed node in the store is registered as a child of its parent
node (same extents, parent label `tOf`). -/
def sppfLinked (g : Grammar) (sppf : List (SKey × List SKey)) : Prop :=
  ∀ s k j i, ((.pk s k, j, i) : SKey) ∈ sppf.map (fun p => p.1) →
    ∃ kids, lookupA sppf (tOf g s, j, i) = some kids ∧
      ∃ c ∈ kids, c.1 = SLbl.pk s k

/-- The conjunction of the SPPF structural invariants. -/
def sppfOk (g : Grammar) (sppf : List (SKey × List SKey)) : Prop :=
  sppfKeysNodup sppf ∧ sppfLinked g sppf ∧ sppfInv sppf

instance {ε α : Type} [DecidableEq ε] [DecidableEq α] :
    DecidableEq (Except ε α) := fun a b =>
  match a, b with
  | .ok x, .ok y =>
      if h : x = y then isTrue (by rw [h])
      else isFalse (fun hh => h (by cases hh; rfl))
  | .ok _, .error _ => isFalse (fun hh => Except.noConfusion hh)
  | .error _, .ok _ => isFalse (fun hh => Except.noConfusion hh)
  | .error x, .error y =>
      if h : x = y then isTrue (by rw [h])
      else isFalse (fun hh => h (by cases hh; rfl))

/-- Chart well-formedness: the column stored at position `k` carries
index `k`. -/
def chartWF (chart : EChart) : Prop :=
  ∀ k, k < chart.length → (chartGet chart k).index = k

/-- The spec-side condition for the Leo shortcut: the start column holds a
unique item with the dot immediately before the completed item's name, and
that dot at the last position of its alternative. -/
def leoUniqCond (chart : EChart) (st : EState) : Prop :=
  ∃ B, (chartGet chart st.scol).states.filter
      (fun s => s.at_dot = some st.name) = [B] ∧
    B.dot + 1 = B.expr.length

/-- Concrete Leo scenario: `<B> -> . <A>` in column 0 is the unique parent
of the finished `<A> -> a .` spanning (0,1). -/
def stW6 : EState := { name := "<A>", expr := ["a"], dot := 1, scol := 0, ecol := 1 }

/-- A finished item with no parent in column 0 (standard completion case). -/
def stN6 : EState := { name := "<S>", expr := ["a"], dot := 1, scol := 0, ecol := 1 }

def chartW6 : EChart :=
  [{ index := 0, letter := none,
     states := [{ name := "<B>", expr := ["<A>"], dot := 0, scol := 0, ecol := 0 }] },
   { index := 1, letter := some 'a', states := [stW6] }]

instance : DecidableEq (EChart × Postdots) := instDecidableEqProd

/-- The observed result of `leo_complete` on `stW6`: the transitive `TState`
`<B> -> <A> .` is memoized in column 0 and its copy added to column 1. -/
def resW6 : EChart × Postdots :=
  ([{ index := 0, letter := none,
      states := [{ name := "<B>", expr := ["<A>"], dot := 0, scol := 0, ecol := 0 }],
      transitives := [("<B>", { name := "<B>", expr := ["<A>"], dot := 1, scol := 0,
                                ecol := 0, tflag := true })] },
    { index := 1, letter := some 'a',
      states := [{ name := "<A>", expr := ["a"], dot := 1, scol := 0, ecol := 1 },
                 { name := "<B>", expr := ["<A>"], dot := 1, scol := 0, ecol := 1,
                   tflag := true }] }],
   [(("<B>", ["<A>"], 0, 0), { name := "<A>", expr := ["a"], dot := 1, scol := 0, ecol := 1 })])

def RemG (s : GSym) (gcur : Grammar) : Prop :=
  ∀ e ∈ gcur, ∀ a ∈ e.2, s ∉ a

def gKeys (g : Grammar) : List GSym := g.map (fun ka => ka.1)

def nullInit (g : Grammar) : List GSym :=
  (g.filter (fun ka => ka.2.contains [])).map (fun ka => ka.1)

def keyIn (s : EState) (col : Col) : Prop :=
  ∃ t ∈ col.states, t.key = s.key

def procdP (g : Grammar) (eps : List GSym) (col : Col) (st : EState) : Prop :=
  match st.at_dot with
  | none => True
  | some sym => gMem g sym = true →
      ((∀ alt ∈ gAlts g sym,
          keyIn { name := sym, expr := alt, dot := 0, scol := 0,
                  ecol := 0 } col) ∧
       (sym ∈ eps → keyIn st.advance col))

def itemOk (g : Grammar) (eps : List GSym) (st : EState) : Prop :=
  st.scol = 0 ∧ st.expr ∈ gAlts g st.name ∧ st.dot ≤ st.expr.length ∧
  ∀ j x, j < st.dot → st.expr.get? j = some x → x ∈ eps

def c8Inv (g : Grammar) (eps : List GSym) (ch : EChart) : Prop :=
  ch.length = 1 ∧ (chartGet ch 0).index = 0 ∧
  ((chartGet ch 0).states.map EState.key).Nodup ∧
  ∀ st ∈ (chartGet ch 0).states, itemOk g eps st

def allKeys (g : Grammar) : List (GSym × List GSym × Nat × Nat) :=
  g.bind (fun ka => ka.2.bind (fun alt =>
    (List.range (alt.length + 1)).map (fun d => (ka.1, alt, d, 0))))

def predItem (sym : GSym) (idx : Nat) (alt : List GSym) : EState :=
  { name := sym, expr := alt, dot := 0, scol := idx, ecol := 0 }

def startItem0 (start : GSym) (alt : List GSym) (d : Nat) : EState :=
  { name := start, expr := alt, dot := d, scol := 0, ecol := 0 }

def seedCol (g : Grammar) (start : GSym) : Col :=
  (gAlts g start).foldl (fun c alt => c.add (startItem0 start alt 0))
    { index := 0, letter := none, states := [] }

def gW8 : Grammar := [("<S>", [["<A>"]]), ("<A>", [[]])]

/-! ## Theorems -/



theorem Col.add_index (c : Col) (s : EState) : (c.add s).index = c.index := by
  unfold Col.add; split <;> rfl

theorem foldl_add_index (l : List α) (f : Col → α → Col)
    (h : ∀ c a, (f c a).index = c.index) (c : Col) :
    (l.foldl f c).index = c.index := by
  induction l generalizing c with
  | nil => rfl
  | cons a l ih => simpa [List.foldl, h] using ih (f c a)

theorem predict_index (g : Grammar) (eps : List GSym) (col : Col)
    (sym : GSym) (st : EState) :
    (predict g eps col sym st).index = col.index := by
  unfold predict
  split
  · rw [Col.add_index]
    exact foldl_add_index _ _ (fun c a => Col.add_index c _) col
  · exact foldl_add_index _ _ (fun c a => Col.add_index c _) col

theorem scan_index (next : Col) (st : EState) (letter : GSym) :
    (scan next st letter).index = next.index := by
  unfold scan
  cases next.letter with
  | none => rfl
  | some c => dsimp only []; split
              · rw [Col.add_index]
              · rfl

theorem earleyComplete_index (chart : EChart) (col : Col) (st : EState) :
    (earleyComplete chart col st).index = col.index :=
  foldl_add_index _ _ (fun c a => Col.add_index c _) col

theorem chartSet_length (chart : EChart) (i : Nat) (c : Col) :
    (chartSet chart i c).length = chart.length := by
  simp [chartSet]

theorem chartGet_set_self (chart : EChart) (i : Nat) (c : Col)
    (h : i < chart.length) : chartGet (chartSet chart i c) i = c := by
  simp [chartGet, chartSet, List.getElem?_set_self', h]

theorem chartGet_set_ne (chart : EChart) (i j : Nat) (c : Col)
    (h : i ≠ j) : chartGet (chartSet chart i c) j = chartGet chart j := by
  simp [chartGet, chartSet, List.getElem?_set_ne h]

theorem chartWF_set (chart : EChart) (i : Nat) (c : Col)
    (hw : chartWF chart) (hc : c.index = i) :
    chartWF (chartSet chart i c) := by
  intro k hk
  rw [chartSet_length] at hk
  by_cases hik : i = k
  · subst hik; rw [chartGet_set_self _ _ _ hk]; exact hc
  · rw [chartGet_set_ne _ _ _ _ hik]; exact hw k hk

theorem fillStep_length (g : Grammar) (eps : List GSym) (chart : EChart)
    (i ptr : Nat) : (fillStep g eps chart i ptr).length = chart.length := by
  unfold fillStep
  cases h : (chartGet chart i).states.get? ptr with
  | none => rfl
  | some st =>
      dsimp only []
      split
      · rw [chartSet_length]
      · split
        · rfl
        · split
          · rw [chartSet_length]
          · split
            · rfl
            · rw [chartSet_length]

theorem chartGet_index_ge (chart : EChart) (i : Nat)
    (h : ¬ i < chart.length) : (chartGet chart i).index = i := by
  have : chart[i]? = none := List.getElem?_eq_none (Nat.le_of_not_lt h)
  simp [chartGet, this]

theorem fillStep_wf (g : Grammar) (eps : List GSym) (chart : EChart)
    (i ptr : Nat) (hw : chartWF chart) : chartWF (fillStep g eps chart i ptr) := by
  have hidx : (chartGet chart i).index = i := by
    by_cases hi : i < chart.length
    · exact hw i hi
    · exact chartGet_index_ge chart i hi
  unfold fillStep
  cases h : (chartGet chart i).states.get? ptr with
  | none => exact hw
  | some st =>
      dsimp only []
      split
      · exact chartWF_set _ _ _ hw (by rw [earleyComplete_index]; exact hidx)
      · split
        · exact hw
        · split
          · exact chartWF_set _ _ _ hw (by rw [predict_index]; exact hidx)
          · split
            · exact hw
            · apply chartWF_set _ _ _ hw
              rw [scan_index]
              exact hw (i+1) (Nat.lt_of_not_le (by omega))

theorem fillCol_length (g : Grammar) (eps : List GSym) (fuel : Nat)
    (chart : EChart) (i ptr : Nat) :
    (fillCol g eps fuel chart i ptr).length = chart.length := by
  induction fuel generalizing chart ptr with
  | zero => rfl
  | succ f ih =>
      unfold fillCol
      split
      · rw [ih, fillStep_length]
      · rfl

theorem fillCol_wf (g : Grammar) (eps : List GSym) (fuel : Nat)
    (chart : EChart) (i ptr : Nat) (hw : chartWF chart) :
    chartWF (fillCol g eps fuel chart i ptr) := by
  induction fuel generalizing chart ptr with
  | zero => exact hw
  | succ f ih =>
      unfold fillCol
      split
      · exact ih _ _ (fillStep_wf g eps chart i ptr hw)
      · exact hw

theorem fillChart_length (g : Grammar) (eps : List GSym) (fuel : Nat)
    (chart : EChart) : (fillChart g eps fuel chart).length = chart.length := by
  unfold fillChart
  generalize List.range chart.length = l
  induction l generalizing chart with
  | nil => rfl
  | cons a l ih => simp only [List.foldl]; rw [ih, fillCol_length]

theorem fillChart_wf (g : Grammar) (eps : List GSym) (fuel : Nat)
    (chart : EChart) (hw : chartWF chart) : chartWF (fillChart g eps fuel chart) := by
  unfold fillChart
  generalize List.range chart.length = l
  induction l generalizing chart with
  | nil => exact hw
  | cons a l ih => exact ih _ (fillCol_wf g eps fuel chart a 0 hw)

theorem chartParse_length (g : Grammar) (eps : List GSym) (fuel : Nat)
    (tokens : List Char) (start : GSym) (alts : List (List GSym)) :
    (chartParse g eps fuel tokens start alts).length = tokens.length + 1 := by
  unfold chartParse
  rw [fillChart_length, chartSet_length]
  simp

theorem baseChart_wf (tokens : List Char) :
    chartWF (({ index := 0, letter := none, states := [] } : Col) ::
      (tokens.enum.map (fun p =>
        { index := p.1 + 1, letter := some p.2, states := [] }))) := by
  intro k hk
  cases k with
  | zero => rfl
  | succ k =>
      simp only [List.length_cons, List.length_map, List.enum_length] at hk
      simp only [chartGet, List.get?_eq_getElem?, List.getElem?_cons_succ]
      rw [List.getElem?_map]
      have : tokens.enum[k]? = some (k, tokens[k]) := by
        have hk' : k < tokens.length := by omega
        rw [List.getElem?_enum]
        simp [List.getElem?_eq_getElem hk']
      rw [this]
      rfl

theorem chartParse_wf (g : Grammar) (eps : List GSym) (fuel : Nat)
    (tokens : List Char) (start : GSym) (alts : List (List GSym)) :
    chartWF (chartParse g eps fuel tokens start alts) := by
  unfold chartParse
  apply fillChart_wf
  apply chartWF_set _ _ _ (baseChart_wf tokens)
  rw [foldl_add_index _ _ (fun c a => Col.add_index c _)]
  rfl

theorem pfxSearch_none_iff (g : Grammar) (start : GSym) (l : List Col) :
    pfxSearch g start l = none ↔ ∀ c ∈ l, colStartItems g start c = [] := by
  induction l with
  | nil => simp [pfxSearch]
  | cons col rest ih =>
      unfold pfxSearch
      dsimp only []
      split
      · rename_i hemp
        rw [List.isEmpty_iff] at hemp
        simp only [List.mem_cons]
        constructor
        · intro h c hc
          rcases hc with rfl | hc
          · exact hemp
          · exact (ih.mp h) c hc
        · intro h
          exact ih.mpr (fun c hc => h c (Or.inr hc))
      · rename_i hemp
        rw [List.isEmpty_iff] at hemp
        simp only [List.mem_cons]
        constructor
        · intro h; cases h
        · intro h; exact absurd (h col (Or.inl rfl)) hemp

theorem pfxSearch_some (g : Grammar) (start : GSym) (l : List Col)
    (i : Nat) (sts : List EState)
    (h : pfxSearch g start l = some (i, sts)) :
    ∃ pre col post, l = pre ++ col :: post ∧
      (∀ c ∈ pre, colStartItems g start c = []) ∧
      colStartItems g start col = sts ∧ sts ≠ [] ∧ i = col.index := by
  induction l with
  | nil => cases h
  | cons col rest ih =>
      unfold pfxSearch at h
      dsimp only [] at h
      split at h
      · rename_i hemp
        rw [List.isEmpty_iff] at hemp
        obtain ⟨pre, c, post, h1, h2, h3, h4, h5⟩ := ih h
        exact ⟨col :: pre, c, post, by rw [h1]; rfl,
          by intro x hx; rcases List.mem_cons.mp hx with rfl | hx
             · exact hemp
             · exact h2 x hx,
          h3, h4, h5⟩
      · rename_i hemp
        rw [List.isEmpty_iff] at hemp
        cases h
        exact ⟨[], col, rest, rfl, by simp, rfl, hemp, rfl⟩

theorem parsePfx_table (g : Grammar) (text : List Char) (start : GSym) :
    (parsePfx g text start).2.2 =
      chartParse g (nullableFn g) (defaultFuel g text.length) text start
        (gAlts g start) := by
  unfold parsePfx
  dsimp only []
  split <;> rfl

theorem parsePfx_cases (g : Grammar) (text : List Char) (start : GSym) :
    (pfxSearch g start (parsePfx g text start).2.2.reverse = none ∧
       (parsePfx g text start).1 = -1 ∧ (parsePfx g text start).2.1 = []) ∨
    (∃ i sts, pfxSearch g start (parsePfx g text start).2.2.reverse =
        some (i, sts) ∧
       (parsePfx g text start).1 = (i : Int) ∧
       (parsePfx g text start).2.1 = sts) := by
  rw [parsePfx_table]
  unfold parsePfx
  dsimp only []
  split
  · rename_i i sts h
    exact Or.inr ⟨i, sts, h, rfl, rfl⟩
  · rename_i h
    exact Or.inl ⟨h, rfl, rfl⟩

theorem reverse_split_get (table : List Col) (pre post : List Col) (col : Col)
    (h : table.reverse = pre ++ col :: post) :
    table[post.length]? = some col ∧ post.length < table.length ∧
    ∀ j, post.length < j → j < table.length → ∃ c ∈ pre, table[j]? = some c := by
  have htab : table = post.reverse ++ col :: pre.reverse := by
    have h2 := congrArg List.reverse h
    simpa using h2
  have hlen : table.length = post.length + 1 + pre.length := by
    rw [htab]; simp; omega
  refine ⟨?_, by omega, ?_⟩
  · rw [htab]
    rw [List.getElem?_append_right (by simp)]
    simp
  · intro j hj1 hj2
    rw [htab]
    rw [List.getElem?_append_right (by simp; omega)]
    have hjl : j - post.reverse.length ≥ 1 := by simp; omega
    have : (col :: pre.reverse)[j - post.reverse.length]? =
        pre.reverse[j - post.reverse.length - 1]? := by
      rcases Nat.exists_eq_add_of_le hjl with ⟨m, hm⟩
      rw [hm]
      simp [Nat.add_comm 1 m]
    rw [this]
    have hin : j - post.reverse.length - 1 < pre.reverse.length := by
      simp at *; omega
    rw [List.getElem?_eq_getElem hin]
    exact ⟨_, by
      have := List.getElem_mem hin
      simpa using List.mem_reverse.mp (by simpa using this), rfl⟩

theorem colStartItems_mem (g : Grammar) (start : GSym) (col : Col)
    (st : EState) (h : st ∈ colStartItems g start col) :
    isStartItem g start st := by
  unfold colStartItems at h
  rw [List.mem_filter] at h
  obtain ⟨-, h2⟩ := h
  simp only [Bool.and_eq_true, decide_eq_true_eq] at h2
  refine ⟨h2.1.1, ?_, h2.2⟩
  exact List.mem_of_elem_eq_true h2.1.2

theorem recognizeOn_eq (g : Grammar) (pexc : Bool) (text : List Char)
    (start : GSym) :
    recognizeOn g pexc text start =
      if pexc && ((parsePfx g text start).1 < (text.length : Int) ||
          ((parsePfx g text start).2.1.filter (fun s => s.finished)).isEmpty)
      then .error (pySliceFrom text (parsePfx g text start).1)
      else .ok ((parsePfx g text start).2.1.filter (fun s => s.finished),
                (parsePfx g text start).2.2) := by
  unfold recognizeOn
  rfl

/-- C4 amended: every state returned by `parse_prefix` is named by the
start symbol with one of its alternatives and starts at column 0 (it need
not be completed); the cursor is the index of the latest column holding
such an item (or -1 when none exists anywhere); `recognize_on` then keeps
only the finished ones and raises at the unconsumed suffix when the cursor
is short or none is finished. -/
theorem C4_parse_prefix_shape (g : Grammar) (text : List Char) (start : GSym) :
    (∀ st ∈ (parsePfx g text start).2.1, isStartItem g start st) ∧
    (parsePfx g text start).2.2.length = text.length + 1 ∧
    ((parsePfx g text start).2.1 = [] →
       (parsePfx g text start).1 = -1 ∧
       ∀ j < text.length + 1,
         colStartItems g start (chartGet (parsePfx g text start).2.2 j) = []) ∧
    ((parsePfx g text start).2.1 ≠ [] →
       ∃ k : Nat, (parsePfx g text start).1 = (k : Int) ∧ k ≤ text.length ∧
         colStartItems g start (chartGet (parsePfx g text start).2.2 k) =
           (parsePfx g text start).2.1 ∧
         ∀ j, k < j → j < text.length + 1 →
           colStartItems g start (chartGet (parsePfx g text start).2.2 j) = []) ∧
    (recognizeOn g true text start =
       if (parsePfx g text start).1 < (text.length : Int) ||
          ((parsePfx g text start).2.1.filter (fun s => s.finished)).isEmpty
       then .error (pySliceFrom text (parsePfx g text start).1)
       else .ok ((parsePfx g text start).2.1.filter (fun s => s.finished),
                 (parsePfx g text start).2.2)) := by
  have hrec : recognizeOn g true text start =
       if (parsePfx g text start).1 < (text.length : Int) ||
          ((parsePfx g text start).2.1.filter (fun s => s.finished)).isEmpty
       then .error (pySliceFrom text (parsePfx g text start).1)
       else .ok ((parsePfx g text start).2.1.filter (fun s => s.finished),
                 (parsePfx g text start).2.2) := by
    simpa using recognizeOn_eq g true text start
  have hlen : (parsePfx g text start).2.2.length = text.length + 1 := by
    rw [parsePfx_table, chartParse_length]
  have hwf : chartWF (parsePfx g text start).2.2 := by
    rw [parsePfx_table]; exact chartParse_wf _ _ _ _ _ _
  rcases parsePfx_cases g text start with ⟨hn, hc, hs⟩ | ⟨i, sts, hh, hc, hs⟩
  · rw [pfxSearch_none_iff] at hn
    refine ⟨(by rw [hs]; intro st h; cases h), hlen, ?_,
            (fun hne => absurd hs hne), hrec⟩
    intro _
    refine ⟨hc, ?_⟩
    intro j hj
    have hj' : j < (parsePfx g text start).2.2.length := by omega
    have : chartGet (parsePfx g text start).2.2 j ∈
        (parsePfx g text start).2.2.reverse := by
      rw [List.mem_reverse]
      unfold chartGet
      rw [List.get?_eq_getElem?, List.getElem?_eq_getElem hj']
      exact List.getElem_mem hj'
    exact hn _ this
  · obtain ⟨pre, col, post, hsplit, hpre, hcol, hne, hidx⟩ :=
      pfxSearch_some g start _ i sts hh
    obtain ⟨hget, hklt, hrest⟩ := reverse_split_get _ _ _ _ hsplit
    have hcg : chartGet (parsePfx g text start).2.2 post.length = col := by
      unfold chartGet; rw [List.get?_eq_getElem?, hget]; rfl
    have hik : i = post.length := by
      rw [hidx, ← hcg]
      exact hwf post.length hklt
    refine ⟨?_, hlen, ?_, ?_, hrec⟩
    · rw [hs, ← hcol]
      intro st h
      exact colStartItems_mem g start col st h
    · intro hemp
      rw [hs] at hemp
      exact absurd hemp hne
    · intro _
      refine ⟨post.length, by rw [hc, hik], by omega, by rw [hcg, hcol, hs], ?_⟩
      intro j hj1 hj2
      obtain ⟨c, hcmem, hcj⟩ := hrest j hj1 (by omega)
      have : chartGet (parsePfx g text start).2.2 j = c := by
        unfold chartGet; rw [List.get?_eq_getElem?, hcj]; rfl
      rw [this]
      exact hpre c hcmem

/-- C1: with the grammar `<S> → $ a` (the alphabet is all ASCII, so `'$'`
is a legitimate terminal) and input `"$a"`, the Earley recognizer accepts
while the compiled GLL recognizer rejects: `sppf_find_or_create` classifies
the label `'$'` as the dummy node, so the node `getNodeT` returns for the
scanned terminal `'$'` is a dummy, `getNodeP`'s `not_dummy` test then drops
the left extent, the accepting symbol node gets extents `(1, 2)` instead of
`(0, 2)`, and the success test for `(<S>, 0, 2)` fails — contradicting the
spec's `getNodeT` contract (a symbol node `(x, i, i+1)` for a terminal) and
the recognition equivalence of the two engines. -/
theorem C1_dollar_divergence :
    (recognizeOn exGdollar true "$a".toList "<S>").isOk = true ∧
    (gllRecognize exGdollar 40 "$a".toList "<S>").1 = GRes.reject ∧
    (lookupA (gllRecognize exGdollar 40 "$a".toList "<S>").2.sppf
      (.sym "<S>", 1, 2)).isSome = true ∧
    lookupA (gllRecognize exGdollar 40 "$a".toList "<S>").2.sppf
      (.sym "<S>", 0, 2) = none := by
  refine ⟨?_, ?_, ?_, ?_⟩ <;> decide

/-- C3 counterexample: the grammar `<A> → <B> | a | a; <B> → <A>` has a
cyclic unit production, and on input `"a"` the GLL enhanced extractor
yields four trees of which the first two (and the last two) are
structurally equal — the extracted set is not a set of distinct trees,
because the SPPF keeps one packed node per alternative index and the two
copies of `a` are distinct alternatives. -/
theorem C3_dupcyc_repeated_trees :
    (gllRecognize exGcycDup 80 "a".toList "<A>").1 = GRes.accept ∧
    gxAll (gllRecognize exGcycDup 80 "a".toList "<A>").2.sppf
      (gllRoot "<A>" 1) 20 12 chain0 =
    .trees [.node "<A>" [.node "a" []], .node "<A>" [.node "a" []],
            .node "<A>" [.node "<B>" [.node "<A>" [.node "a" []]]],
            .node "<A>" [.node "<B>" [.node "<A>" [.node "a" []]]]] := by
  constructor <;> decide

/-- C3 amended: for the spec's cyclic unit-production grammar
`<A> → <B> | a; <B> → <A>` on input `"a"`, recognition completes
successfully on both engines, and each enhanced extractor enumerates a
finite, non-empty list of pairwise distinct trees, with the directly
cyclic derivations suppressed (the chain `A → B → A → …` is cut by the
on-stack `seen` set). -/
theorem C3_cyclic_example_extraction :
    (recognizeOn exGcyc true "a".toList "<A>").isOk = true ∧
    (match eeInit exGcyc "a".toList "<A>" with
     | some ft => eeAll exGcyc ft.2 ft.1 50 20 chain0
     | none => none) =
      some [.node "<A>" [.node "a" []],
            .node "<A>" [.node "<B>" [.node "<A>" [.node "a" []]]]] ∧
    (gllRecognize exGcyc 60 "a".toList "<A>").1 = GRes.accept ∧
    gxAll (gllRecognize exGcyc 60 "a".toList "<A>").2.sppf
      (gllRoot "<A>" 1) 20 10 chain0 =
      .trees [.node "<A>" [.node "a" []],
              .node "<A>" [.node "<B>" [.node "<A>" [.node "a" []]]]] ∧
    (PTree.node "<A>" [.node "a" []] ≠
     PTree.node "<A>" [.node "<B>" [.node "<A>" [.node "a" []]]]) := by
  refine ⟨?_, ?_, ?_, ?_, ?_⟩ <;> decide

/-- C4 counterexample: on `<S> → a b` with input `"a"`, `parse_prefix`
returns cursor 1 together with a non-empty state list containing an
*unfinished* item (`<S> → a · b`): the returned states are not all
completed start items, and column 1 holds no completed start item at
all. -/
theorem C4_not_all_completed :
    (parsePfx exGab "a".toList "<S>").1 = 1 ∧
    ((parsePfx exGab "a".toList "<S>").2.1.all (fun s => s.finished)) = false ∧
    (parsePfx exGab "a".toList "<S>").2.1 ≠ [] := by
  refine ⟨?_, ?_, ?_⟩ <;> decide

theorem C4_parse_prefix_shape_witness :
    (parsePfx exGab "a".toList "<S>").2.1 ≠ [] ∧
    (∃ k : Nat, (parsePfx exGab "a".toList "<S>").1 = (k : Int) ∧
      k ≤ "a".toList.length ∧
      colStartItems exGab "<S>"
        (chartGet (parsePfx exGab "a".toList "<S>").2.2 k) =
        (parsePfx exGab "a".toList "<S>").2.1 ∧
      ∀ j, k < j → j < "a".toList.length + 1 →
        colStartItems exGab "<S>"
          (chartGet (parsePfx exGab "a".toList "<S>").2.2 j) = []) := by
  refine ⟨by decide, ?_⟩
  exact (C4_parse_prefix_shape exGab "a".toList "<S>").2.2.2.1 (by decide)

/-- C5 amended (Earley side): whenever the Earley recognizer rejects, the
`SyntaxError` payload is exactly the Python slice `text[cursor:]` of the
unconsumed input, and the rejection happens exactly when the cursor falls
short of the input length or no completed start item was found. -/
theorem C5_earley_error_suffix (g : Grammar) (text : List Char) (start : GSym)
    (e : List Char) (h : recognizeOn g true text start = .error e) :
    e = pySliceFrom text (parsePfx g text start).1 ∧
    ((parsePfx g text start).1 < (text.length : Int) ∨
     (parsePfx g text start).2.1.filter (fun s => s.finished) = []) := by
  rw [recognizeOn_eq] at h
  simp only [Bool.true_and] at h
  split at h
  · rename_i hcond
    cases h
    constructor
    · rfl
    · rcases Bool.or_eq_true_iff.mp hcond with h1 | h1
      · left; exact of_decide_eq_true h1
      · right; exact List.isEmpty_iff.mp h1
  · cases h

theorem C5_earley_error_suffix_witness :
    recognizeOn exGa true "ac".toList "<S>" = .error ['c'] ∧
    ['c'] = pySliceFrom "ac".toList (parsePfx exGa "ac".toList "<S>").1 := by
  refine ⟨by decide, ?_⟩
  exact (C5_earley_error_suffix exGa "ac".toList "<S>" ['c'] (by decide)).1

/-- C5 counterexample: the compiled GLL recognizer signals failure only by
an empty result.  Inputs `"b"` and `"ac"` for `<S> → a` fail at positions
0 and 1 (the Earley errors carry the distinct suffixes `"b"` and `"c"`),
yet the GLL outcomes are the identical bare rejection — the GLL rejection
carries neither the offending suffix nor the failing index. -/
theorem C5_gll_positionless :
    (gllRecognize exGa 40 "b".toList "<S>").1 = GRes.reject ∧
    (gllRecognize exGa 40 "ac".toList "<S>").1 = GRes.reject ∧
    recognizeOn exGa true "b".toList "<S>" = .error ['b'] ∧
    recognizeOn exGa true "ac".toList "<S>" = .error ['c'] ∧
    ['b'] ≠ ['c'] := by
  refine ⟨?_, ?_, ?_, ?_, ?_⟩ <;> decide

/-- C7 counterexample: for the duplicate-alternative grammar `<S> → a | a`
(duplicate alternatives are explicitly allowed by the data model), the GLL
enhanced extractor for the accepting parse of `"a"` returns, on its first
two calls, two structurally *equal* trees (and then "no more trees"): two
successful `extract_a_tree()` calls need not return distinct trees. -/
theorem C7_equal_trees :
    (gllRecognize exGdup 40 "a".toList "<S>").1 = GRes.accept ∧
    gxAll (gllRecognize exGdup 40 "a".toList "<S>").2.sppf
      (gllRoot "<S>" 1) 20 10 chain0 =
    .trees [.node "<S>" [.node "a" []], .node "<S>" [.node "a" []]] := by
  constructor <;> decide

/-- C7 amended: once the root choice record is exhausted, `extract_a_tree`
returns "no more trees" (and leaves the chain unchanged) without
traversing, on both the GLL (SPPF) and the Earley (forest) enhanced
extractors. -/
theorem C7_null_on_exhaustion (sppf : List (SKey × List SKey)) (root : SKey)
    (g : Grammar) (chart : EChart) (forest : ForestNode)
    (nf f : Nat) (chain : List CRec) (h : rootFinished chain = true) :
    gxTree sppf root nf (f + 1) chain = .res none chain ∧
    eeTree g chart forest nf (f + 1) chain = some (none, chain) := by
  constructor
  · unfold gxTree
    rw [h]
    rfl
  · unfold eeTree
    rw [h]
    rfl

theorem C7_null_on_exhaustion_witness :
    rootFinished [((1 : Nat), (1 : Nat))] = true ∧
    gxTree [] endRule 5 8 [(1, 1)] = .res none [(1, 1)] ∧
    eeTree [] [] ("", []) 5 8 [(1, 1)] = some (none, [(1, 1)]) := by
  have h := C7_null_on_exhaustion [] endRule [] [] ("", []) 5 7 [(1, 1)]
    (by decide)
  exact ⟨by decide, h.1, h.2⟩

/-- C10 counterexample: with `parse_exceptions=False` and the unparseable
input `"b"` for `<S> → a`, `recognize_on` indeed returns the empty list
without raising, but `parse_on` then fails `parse_forest`'s
`assert len(names) == 1` (an `AssertionError`) instead of yielding no
trees. -/
theorem C10_assert_failure :
    (Except.map (fun p => p.1) (recognizeOn exGa false "b".toList "<S>")
      = Except.ok []) ∧
    parseOn exGa false 20 "b".toList "<S>" = .error .assertFail := by
  constructor <;> decide

/-- C10 amended: with `parse_exceptions=False`, `recognize_on` always
returns (without raising) the possibly-empty list of finished start items;
but when that list is empty, `parse_on` fails `parse_forest`'s
`assert len(names) == 1` instead of yielding an empty tree sequence. -/
theorem C10_no_exceptions (g : Grammar) (text : List Char) (start : GSym)
    (fuel : Nat) :
    recognizeOn g false text start =
      .ok ((parsePfx g text start).2.1.filter (fun s => s.finished),
           (parsePfx g text start).2.2) ∧
    ((parsePfx g text start).2.1.filter (fun s => s.finished) = [] →
      parseOn g false fuel text start = .error .assertFail) := by
  have h1 : recognizeOn g false text start =
      .ok ((parsePfx g text start).2.1.filter (fun s => s.finished),
           (parsePfx g text start).2.2) := by
    simpa using recognizeOn_eq g false text start
  refine ⟨h1, ?_⟩
  intro hemp
  unfold parseOn
  rw [h1, hemp]
  rfl

theorem C10_no_exceptions_witness :
    recognizeOn exGa false "b".toList "<S>" =
      .ok ((parsePfx exGa "b".toList "<S>").2.1.filter (fun s => s.finished),
           (parsePfx exGa "b".toList "<S>").2.2) ∧
    parseOn exGa false 20 "b".toList "<S>" = .error .assertFail := by
  have h := C10_no_exceptions exGa "b".toList "<S>" 20
  exact ⟨h.1, h.2 (by decide)⟩


/-! lookupA / setA toolbox -/

theorem lookupA_eq_none {κ α : Type} [DecidableEq κ] (l : List (κ × α))
    (k : κ) : lookupA l k = none ↔ k ∉ l.map (fun p => p.1) := by
  induction l with
  | nil => simp [lookupA]
  | cons p rest ih =>
      unfold lookupA
      rcases p with ⟨k', v⟩
      by_cases h : k' = k
      · subst h; simp
      · simp only [if_neg h, List.map_cons, List.mem_cons, ih]
        constructor
        · intro hh hc
          rcases hc with hc | hc
          · exact h hc.symm
          · exact hh hc
        · intro hh
          exact fun hc => hh (Or.inr hc)

theorem lookupA_isSome_iff {κ α : Type} [DecidableEq κ] (l : List (κ × α))
    (k : κ) : (lookupA l k).isSome = true ↔ k ∈ l.map (fun p => p.1) := by
  have h := lookupA_eq_none l k
  cases hl : lookupA l k with
  | none => simpa [hl] using h
  | some v =>
      simp only [hl, Option.isSome_some, true_iff]
      by_contra hc
      rw [← lookupA_eq_none] at hc
      rw [hl] at hc
      cases hc

theorem lookupA_mem {κ α : Type} [DecidableEq κ] (l : List (κ × α))
    (k : κ) (v : α) (h : lookupA l k = some v) : (k, v) ∈ l := by
  induction l with
  | nil => cases h
  | cons p rest ih =>
      unfold lookupA at h
      rcases p with ⟨k', v'⟩
      by_cases hk : k' = k
      · subst hk
        rw [if_pos rfl] at h
        cases h
        exact List.mem_cons_self _ _
      · rw [if_neg hk] at h
        exact List.mem_cons_of_mem _ (ih h)

theorem lookupA_append {κ α : Type} [DecidableEq κ] (l l' : List (κ × α))
    (k : κ) : lookupA (l ++ l') k =
      match lookupA l k with
      | some v => some v
      | none => lookupA l' k := by
  induction l with
  | nil => simp [lookupA]
  | cons p rest ih =>
      rcases p with ⟨k', v'⟩
      by_cases hk : k' = k
      · subst hk; simp [lookupA]
      · simp only [List.cons_append, lookupA, if_neg hk]
        exact ih

theorem setA_keys {κ α : Type} [DecidableEq κ] (l : List (κ × α)) (k : κ)
    (v : α) : (setA l k v).map (fun p => p.1) = l.map (fun p => p.1) := by
  induction l with
  | nil => rfl
  | cons p rest ih =>
      unfold setA at *
      simp only [List.map_cons, List.map_map] at *
      by_cases h : p.1 = k
      · simp [h, ih]
      · simp [h, ih]

theorem lookupA_setA_self {κ α : Type} [DecidableEq κ] (l : List (κ × α))
    (k : κ) (v : α) (h : (lookupA l k).isSome = true) :
    lookupA (setA l k v) k = some v := by
  induction l with
  | nil => cases h
  | cons p rest ih =>
      rcases p with ⟨k', v'⟩
      by_cases hk : k' = k
      · subst hk
        unfold setA
        simp only [List.map_cons, if_true]
        unfold lookupA
        simp
      · unfold lookupA at h
        rw [if_neg hk] at h
        unfold setA
        simp only [List.map_cons, if_neg hk]
        unfold lookupA
        rw [if_neg hk]
        have := ih h
        unfold setA at this
        exact this

theorem lookupA_setA_ne {κ α : Type} [DecidableEq κ] (l : List (κ × α))
    (k k' : κ) (v : α) (h : k' ≠ k) :
    lookupA (setA l k v) k' = lookupA l k' := by
  induction l with
  | nil => rfl
  | cons p rest ih =>
      rcases p with ⟨k0, v0⟩
      unfold setA
      simp only [List.map_cons]
      by_cases hk : k0 = k
      · subst hk
        simp only [if_pos rfl]
        unfold lookupA
        rw [if_neg (fun hh => h hh.symm), if_neg (fun hh => h hh.symm)]
        have := ih
        unfold setA at this
        exact this
      · simp only [if_neg hk]
        unfold lookupA
        by_cases hk' : k0 = k'
        · subst hk'
          rw [if_pos rfl, if_pos rfl]
        · rw [if_neg hk', if_neg hk']
          have := ih
          unfold setA at this
          exact this

theorem kidsUniq_nil : kidsUniq [] := by
  intro s k
  simp

theorem lookupA_of_mem_nodup {κ α : Type} [DecidableEq κ]
    (l : List (κ × α)) (h : (l.map (fun p => p.1)).Nodup) (e : κ × α)
    (he : e ∈ l) : lookupA l e.1 = some e.2 := by
  induction l with
  | nil => cases he
  | cons p rest ih =>
      rcases List.mem_cons.mp he with rfl | he'
      · unfold lookupA
        rw [if_pos rfl]
      · unfold lookupA
        have hne : p.1 ≠ e.1 := by
          intro hc
          rw [List.map_cons, List.nodup_cons] at h
          exact h.1 (hc ▸ List.mem_map.mpr ⟨e, he', rfl⟩)
        rw [if_neg hne]
        rw [List.map_cons, List.nodup_cons] at h
        exact ih h.2 he'

theorem sppfOk_append_nonpk (g : Grammar) (sppf : List (SKey × List SKey))
    (lbl : SLbl) (j i : Nat) (hl : ∀ s k, lbl ≠ SLbl.pk s k)
    (hnew : lookupA sppf (lbl, j, i) = none) (h : sppfOk g sppf) :
    sppfOk g (sppf ++ [((lbl, j, i), [])]) := by
  obtain ⟨hnd, hlink, hinv⟩ := h
  refine ⟨?_, ?_, ?_⟩
  · unfold sppfKeysNodup at *
    rw [List.map_append]
    simp only [List.map_cons, List.map_nil]
    rw [List.nodup_append]
    refine ⟨hnd, List.nodup_singleton _, ?_⟩
    intro a ha hb
    simp only [List.mem_singleton] at hb
    subst hb
    rw [lookupA_eq_none] at hnew
    exact hnew ha
  · intro s k j' i' hmem
    rw [List.map_append] at hmem
    rcases List.mem_append.mp hmem with hmem | hmem
    · obtain ⟨kids, hk1, hk2⟩ := hlink s k j' i' hmem
      refine ⟨kids, ?_, hk2⟩
      rw [lookupA_append, hk1]
    · simp only [List.map_cons, List.map_nil, List.mem_singleton] at hmem
      exact absurd (congrArg Prod.fst hmem).symm (hl s k)
  · intro p hp h1 h2
    rcases List.mem_append.mp hp with hp | hp
    · exact hinv p hp h1 h2
    · simp only [List.mem_singleton] at hp
      subst hp
      exact kidsUniq_nil

theorem sppfOk_addPacked (g : Grammar) (sppf : List (SKey × List SKey))
    (pnslot : Slot) (pnk jc1 i : Nat) (children ykids : List SKey)
    (h : sppfOk g sppf)
    (hy : lookupA sppf (tOf g pnslot, jc1, i) = some ykids)
    (hno : ¬ ∃ c ∈ ykids, c.1 = SLbl.pk pnslot pnk) :
    sppfOk g
      (setA (sppf ++ [((SLbl.pk pnslot pnk, jc1, i), children)])
        (tOf g pnslot, jc1, i)
        (ykids ++ [(SLbl.pk pnslot pnk, jc1, i)])) := by
  obtain ⟨hnd, hlink, hinv⟩ := h
  set ykey : SKey := (tOf g pnslot, jc1, i) with hykey
  set pnKey : SKey := (SLbl.pk pnslot pnk, jc1, i) with hpnKey
  have hpn_not_in : pnKey ∉ sppf.map (fun p => p.1) := by
    intro hc
    obtain ⟨kids2, hk1, c, hc1, hc2⟩ := hlink pnslot pnk jc1 i hc
    rw [hy] at hk1
    cases hk1
    exact hno ⟨c, hc1, hc2⟩
  have htof : ∀ s k, tOf g pnslot ≠ SLbl.pk s k := by
    intro s k hc
    simp only [tOf] at hc
    split at hc <;> cases hc
  have hy_ne_pn : ykey ≠ pnKey := by
    intro hc
    exact htof pnslot pnk (congrArg Prod.fst hc)
  have hkeys1 : (sppf ++ [(pnKey, children)]).map (fun p => p.1) =
      sppf.map (fun p => p.1) ++ [pnKey] := by
    rw [List.map_append]; rfl
  have hyext : lookupA (sppf ++ [(pnKey, children)]) ykey = some ykids := by
    rw [lookupA_append, hy]
  have hyext_some : (lookupA (sppf ++ [(pnKey, children)]) ykey).isSome
      = true := by rw [hyext]; rfl
  refine ⟨?_, ?_, ?_⟩
  · unfold sppfKeysNodup at *
    rw [setA_keys, hkeys1]
    rw [List.nodup_append]
    refine ⟨hnd, List.nodup_singleton _, ?_⟩
    intro a ha hb
    simp only [List.mem_singleton] at hb
    subst hb
    exact hpn_not_in ha
  · intro s k j' i' hmem
    rw [setA_keys, hkeys1] at hmem
    by_cases hpar : ((tOf g s, j', i') : SKey) = ykey
    · refine ⟨ykids ++ [pnKey], ?_, ?_⟩
      · rw [hpar, lookupA_setA_self _ _ _ hyext_some]
      · rcases List.mem_append.mp hmem with hmem | hmem
        · obtain ⟨kids2, hk1, c, hc1, hc2⟩ := hlink s k j' i' hmem
          rw [hpar, hy] at hk1
          cases hk1
          exact ⟨c, List.mem_append_left _ hc1, hc2⟩
        · simp only [List.mem_singleton] at hmem
          refine ⟨pnKey, List.mem_append_right _ (List.mem_singleton.mpr rfl), ?_⟩
          have h1 := congrArg (fun q : SKey => q.1) hmem
          simp only [hpnKey] at h1 ⊢
          simp only [h1]
    · rw [lookupA_setA_ne _ _ _ _ hpar, lookupA_append]
      rcases List.mem_append.mp hmem with hmem | hmem
      · obtain ⟨kids2, hk1, hk2⟩ := hlink s k j' i' hmem
        exact ⟨kids2, by rw [hk1], hk2⟩
      · simp only [List.mem_singleton] at hmem
        exfalso
        have h1 := congrArg (fun q : SKey => q.1) hmem
        have h2 := congrArg (fun q : SKey => q.2.1) hmem
        have h3 := congrArg (fun q : SKey => q.2.2) hmem
        simp only [hpnKey] at h1 h2 h3
        cases h1
        apply hpar
        rw [hykey]
        rw [h2, h3]
  · intro p hp hd hpk
    have hp2 : p ∈ (sppf ++ [(pnKey, children)]).map
        (fun e => if e.1 = ykey then (ykey, ykids ++ [pnKey]) else e) := hp
    rw [List.mem_map] at hp2
    obtain ⟨e, he, hfe⟩ := hp2
    by_cases hek : e.1 = ykey
    · rw [if_pos hek] at hfe
      subst hfe
      have hev : e.2 = ykids := by
        rcases List.mem_append.mp he with he' | he'
        · have := lookupA_of_mem_nodup sppf hnd e he'
          rw [hek, hy] at this
          cases this
          rfl
        · simp only [List.mem_singleton] at he'
          rw [he'] at hek
          exact absurd hek (fun hh => hy_ne_pn hh.symm)
      intro s k
      rw [List.filter_append]
      by_cases hsk : pnslot = s ∧ pnk = k
      · obtain ⟨rfl, rfl⟩ := hsk
        have hf0 : ykids.filter (fun c => c.1 = SLbl.pk pnslot pnk) = [] := by
          rw [List.filter_eq_nil]
          intro c hc
          simp only [decide_eq_true_eq]
          exact fun hcc => hno ⟨c, hc, hcc⟩
        rw [hf0]
        simp [hpnKey]
      · have hf1 : ([pnKey].filter (fun c => c.1 = SLbl.pk s k)) = [] := by
          have hlbl : (pnKey.1 = SLbl.pk s k) = False := by
            simp only [hpnKey, eq_iff_iff, iff_false]
            intro hc
            injection hc with h1 h2
            exact hsk ⟨h1, h2⟩
          simp [List.filter, hlbl]
        rw [hf1, List.append_nil]
        have hyent : (ykey, ykids) ∈ sppf := lookupA_mem _ _ _ hy
        have := hinv (ykey, ykids) hyent hd hpk s k
        exact this
    · rw [if_neg hek] at hfe
      subst hfe
      rcases List.mem_append.mp he with he' | he'
      · exact hinv e he' hd hpk
      · simp only [List.mem_singleton] at he'
        subst he'
        exact absurd rfl (hpk pnslot pnk)

theorem sppfFindOrCreate_ok (g : Grammar) (st : GllSt) (lbl : SLbl)
    (j i : Nat) (hl : ∀ s k, lbl ≠ SLbl.pk s k) (h : sppfOk g st.sppf) :
    sppfOk g (sppfFindOrCreate st lbl j i).1.sppf ∧
    (sppfFindOrCreate st lbl j i).2 = (lbl, j, i) ∧
    lookupA (sppfFindOrCreate st lbl j i).1.sppf (lbl, j, i) =
      some ((lookupA st.sppf (lbl, j, i)).getD []) := by
  unfold sppfFindOrCreate
  dsimp only []
  split
  · rename_i hs
    rcases Option.isSome_iff_exists.mp hs with ⟨v, hv⟩
    exact ⟨h, rfl, by rw [hv]; rfl⟩
  · rename_i hs
    have hnone : lookupA st.sppf (lbl, j, i) = none := by
      cases hlk : lookupA st.sppf (lbl, j, i) with
      | none => rfl
      | some v => rw [hlk] at hs; cases hs rfl
    refine ⟨sppfOk_append_nonpk g st.sppf lbl j i hl hnone h, rfl, ?_⟩
    rw [lookupA_append, hnone]
    simp [lookupA, hnone]

theorem getNodeP_ok (g : Grammar) (nulls : List GSym) (st : GllSt)
    (slot : Slot) (w z : SKey) (h : sppfOk g st.sppf) :
    sppfOk g (getNodeP g nulls st slot w z).1.sppf := by
  unfold getNodeP
  dsimp only []
  split
  · exact h
  · generalize (if notDummy w = true then (w.2.1, [w, z])
      else (z.2.1, [z]) : Nat × List SKey) = jc
    have htof : ∀ s k, tOf g slot ≠ SLbl.pk s k := by
      intro s k hc
      simp only [tOf] at hc
      split at hc <;> cases hc
    obtain ⟨h1, h2, h3⟩ := sppfFindOrCreate_ok g st (tOf g slot)
      jc.1 z.2.2 htof h
    cases hfc : sppfFindOrCreate st (tOf g slot) jc.1 z.2.2 with
    | mk st1 ykey =>
        rw [hfc] at h1 h2 h3
        dsimp only [] at h1 h2 h3
        subst h2
        dsimp only []
        split
        · exact h1
        · rename_i hno
          have hy2 : lookupA st1.sppf (tOf g slot, jc.1, z.2.2) =
              some ((lookupA st1.sppf (tOf g slot, jc.1, z.2.2)).getD []) := by
            rw [h3]
            rfl
          exact sppfOk_addPacked g st1.sppf slot z.2.1 _ z.2.2 _ _ h1 hy2
            (by
              intro hex
              obtain ⟨c, hc1, hc2⟩ := hex
              rw [Bool.not_eq_true] at hno
              rw [List.any_eq_false] at hno
              have := hno c hc1
              simp only [decide_eq_true_eq] at this
              exact this hc2)

theorem getNodeT_sppf_ok (g : Grammar) (st : GllSt) (x : Option GSym)
    (i : Nat) (h : sppfOk g st.sppf) :
    sppfOk g (getNodeT st x i).1.sppf := by
  unfold getNodeT
  have hl : ∀ s k, sppfTLbl x ≠ SLbl.pk s k := by
    intro s k hc
    unfold sppfTLbl at hc
    cases x with
    | none => cases hc
    | some v =>
        by_cases hv : v = "$" <;> simp only [if_pos, if_neg, hv] at hc <;>
          cases hc
  exact (sppfFindOrCreate_ok g st _ _ _ hl h).1

theorem addThread_sppf (st : GllSt) (L : Slot) (u : GKey) (i : Nat)
    (w : SKey) : (addThread st L u i w).sppf = st.sppf := by
  unfold addThread
  split <;> rfl

theorem gssGet_sppf (st : GllSt) (k : GKey) : (gssGet st k).sppf = st.sppf := by
  unfold gssGet
  split <;> rfl

theorem foldl_sppfOk {α : Type} (g : Grammar) (f : GllSt → α → GllSt)
    (hf : ∀ st a, sppfOk g st.sppf → sppfOk g (f st a).sppf)
    (l : List α) (st : GllSt) (h : sppfOk g st.sppf) :
    sppfOk g (l.foldl f st).sppf := by
  induction l generalizing st with
  | nil => exact h
  | cons a l ih => exact ih (f st a) (hf st a h)

theorem registerReturn_sppf_ok (g : Grammar) (nulls : List GSym)
    (st : GllSt) (L : Slot) (u : GKey) (i : Nat) (w : SKey)
    (h : sppfOk g st.sppf) :
    sppfOk g (registerReturn g nulls st L u i w).1.sppf := by
  unfold registerReturn
  dsimp only []
  split
  · rw [gssGet_sppf]; exact h
  · apply foldl_sppfOk g _ ?_ _ _ ?_
    · intro st2 z h2
      cases hp : getNodeP g nulls st2 L w z with
      | mk st3 y =>
          rw [addThread_sppf]
          have := getNodeP_ok g nulls st2 L w z h2
          rw [hp] at this
          exact this
    · show sppfOk g (gssGet st (GLbl.ret L, i)).sppf
      rw [gssGet_sppf]
      exact h

theorem fnReturn_sppf_ok (g : Grammar) (nulls : List GSym) (st : GllSt)
    (u : GKey) (i : Nat) (z : SKey) (h : sppfOk g st.sppf) :
    sppfOk g (fnReturn g nulls st u i z).sppf := by
  unfold fnReturn
  split
  · exact h
  · rename_i hub
    cases hu : u.1 with
    | l0 => exact h
    | ret L =>
        exact foldl_sppfOk g _
          (fun st2 cw h2 => by
            cases hp : getNodeP g nulls st2 L cw.2 z with
            | mk st3 y =>
                rw [addThread_sppf]
                have := getNodeP_ok g nulls st2 L cw.2 z h2
                rw [hp] at this
                exact this) _ _ h

theorem gllStep_sppf_ok (g : Grammar) (nulls : List GSym) (start : GSym)
    (I : List Char) (m : Nat) (st : GllSt) (conf : GConf)
    (h : sppfOk g st.sppf) (st2 : GllSt) (conf2 : GConf)
    (hs : gllStep g nulls start I m st conf = .inl (st2, conf2)) :
    sppfOk g st2.sppf := by
  unfold gllStep at hs
  cases hL : conf.L with
  | l0 =>
      rw [hL] at hs
      dsimp only [] at hs
      cases ht : st.threads with
      | nil =>
          rw [ht] at hs
          dsimp only [] at hs
          split at hs <;> cases hs
      | cons t rest =>
          rw [ht] at hs
          rcases t with ⟨L, u, i, w⟩
          cases hs
          exact h
  | lret =>
      rw [hL] at hs
      cases hs
      exact fnReturn_sppf_ok g nulls st conf.stack conf.idx conf.w h
  | ent X =>
      rw [hL] at hs
      dsimp only [] at hs
      cases hg : gLookup g X with
      | none => rw [hg] at hs; cases hs
      | some alts =>
          rw [hg] at hs
          cases hs
          apply foldl_sppfOk g _ ?_ _ _ h
          intro st3 n h3
          rw [addThread_sppf]
          exact h3
  | slt s =>
      rw [hL] at hs
      rcases s with ⟨X, nalt, dot⟩
      dsimp only [] at hs
      split at hs
      · -- epsilon
        cases hT : getNodeT st none conf.idx with
        | mk stt right =>
            rw [hT] at hs
            dsimp only [] at hs
            cases hP : getNodeP g nulls stt (X, nalt, 0) conf.w right with
            | mk stp w2 =>
                rw [hP] at hs
                cases hs
                have h1 := getNodeT_sppf_ok g st none conf.idx h
                rw [hT] at h1
                have h2 := getNodeP_ok g nulls stt (X, nalt, 0) conf.w right h1
                rw [hP] at h2
                exact h2
      · split at hs
        · cases hs; exact h
        · cases hrd : (((gAlts g X).get? nalt).getD []).get? dot with
          | none => rw [hrd] at hs; cases hs
          | some tok =>
              rw [hrd] at hs
              dsimp only [] at hs
              split at hs
              · -- nonterminal
                cases hR : registerReturn g nulls st (X, nalt, dot + 1)
                    conf.stack conf.idx conf.w with
                | mk str v =>
                    rw [hR] at hs
                    cases hs
                    have := registerReturn_sppf_ok g nulls st
                      (X, nalt, dot + 1) conf.stack conf.idx conf.w h
                    rw [hR] at this
                    exact this
              · cases hI : I.get? conf.idx with
                | none => rw [hI] at hs; cases hs
                | some c =>
                    rw [hI] at hs
                    dsimp only [] at hs
                    split at hs
                    · cases hT : getNodeT st (some tok) conf.idx with
                      | mk stt right =>
                          rw [hT] at hs
                          dsimp only [] at hs
                          cases hP : getNodeP g nulls stt (X, nalt, dot + 1)
                              conf.w right with
                          | mk stp w2 =>
                              rw [hP] at hs
                              cases hs
                              have h1 := getNodeT_sppf_ok g st (some tok)
                                conf.idx h
                              rw [hT] at h1
                              have h2 := getNodeP_ok g nulls stt
                                (X, nalt, dot + 1) conf.w right h1
                              rw [hP] at h2
                              exact h2
                    · cases hs; exact h

theorem gllLoop_sppf_ok (g : Grammar) (nulls : List GSym) (start : GSym)
    (I : List Char) (m fuel : Nat) (st : GllSt) (conf : GConf)
    (h : sppfOk g st.sppf) :
    sppfOk g (gllLoop g nulls start I m fuel st conf).2.sppf := by
  induction fuel generalizing st conf with
  | zero => exact h
  | succ f ih =>
      unfold gllLoop
      cases hs : gllStep g nulls start I m st conf with
      | inl p =>
          rcases p with ⟨st2, conf2⟩
          exact ih st2 conf2 (gllStep_sppf_ok g nulls start I m st conf h
            st2 conf2 hs)
      | inr r => exact h

theorem gllInitSt_sppf_ok (g : Grammar) : sppfOk g gllInitSt.sppf := by
  refine ⟨?_, ?_, ?_⟩
  · unfold sppfKeysNodup gllInitSt
    simp
  · intro s k j i hmem
    unfold gllInitSt at hmem
    simp only [List.map_cons, List.map_nil, List.mem_singleton] at hmem
    cases congrArg Prod.fst hmem
  · intro p hp hd hpk
    unfold gllInitSt at hp
    simp only [List.mem_singleton] at hp
    subst hp
    exact absurd rfl (hd (some "$"))

/-- C9: at every point during and after a GLL parse (any fuel prefix of
the driver run, hence any reachable state), no SPPF symbol or intermediate
node has two packed-node children sharing the same `(slot, k)` label:
`getNodeP` adds a packed child only after checking that the parent has no
packed child labelled `(slot, k)`. -/
theorem C9_packed_uniqueness (g : Grammar) (fuel : Nat) (text : List Char)
    (start : GSym) :
    sppfInv (gllRecognize g fuel text start).2.sppf := by
  unfold gllRecognize
  exact (gllLoop_sppf_ok g (nullableGLL g) start (text ++ ['$'])
    text.length fuel gllInitSt ⟨.ent start, gssBottom, 0, endRule⟩
    (gllInitSt_sppf_ok g)).2.2

theorem parents_filter_eq (col : Col) (name : GSym) :
    col.states.filter (fun s => !s.expr.isEmpty && s.at_dot = some name) =
    col.states.filter (fun s => s.at_dot = some name) := by
  apply List.filter_congr
  intro s _
  by_cases he : s.expr.isEmpty
  · have hdot : s.at_dot = none := by
      unfold EState.at_dot
      rw [List.isEmpty_iff] at he
      rw [he]
      rfl
    rw [he, hdot]
    simp
  · simp [he]

theorem at_dot_lt (s : EState) (name : GSym) (h : s.at_dot = some name) :
    s.dot < s.expr.length := by
  unfold EState.at_dot at h
  by_contra hc
  rw [List.get?_eq_none.mpr (Nat.le_of_not_lt hc)] at h
  cases h

theorem uniqPostdot_some (chart : EChart) (pd : Postdots) (st B : EState)
    (pd2 : Postdots)
    (h : uniqPostdotF chart pd st = (pd2, some B)) : leoUniqCond chart st := by
  simp only [uniqPostdotF] at h
  rw [parents_filter_eq] at h
  set P := (chartGet chart st.scol).states.filter
    (fun s => s.at_dot = some st.name) with hP
  split at h
  · cases h
  · rename_i hlen
    cases hPc : P with
    | nil => rw [hPc] at h; cases h
    | cons b0 rest =>
        cases rest with
        | nil =>
            rw [hPc] at h
            by_cases hq : b0.dot = b0.expr.length - 1
            · have : [b0].filter (fun s => s.dot = s.expr.length - 1) = [b0] := by
                simp [List.filter, hq]
              rw [this] at h
              cases h
              refine ⟨B, hPc, ?_⟩
              have hmem : B ∈ P := by rw [hPc]; exact List.mem_singleton.mpr rfl
              have hdl : B.dot < B.expr.length := by
                rw [hP] at hmem
                rw [List.mem_filter] at hmem
                exact at_dot_lt B st.name (by simpa using hmem.2)
              omega
            · have : [b0].filter (fun s => s.dot = s.expr.length - 1) = [] := by
                simp [List.filter, hq]
              rw [this] at h
              cases h
        | cons b1 rest2 =>
            exfalso
            rw [hPc] at hlen
            simp at hlen

theorem uniqPostdot_of_cond (chart : EChart) (pd : Postdots) (st : EState)
    (h : leoUniqCond chart st) :
    ∃ B, uniqPostdotF chart pd st = (setPd pd B.key st, some B) ∧
      (chartGet chart st.scol).states.filter
        (fun s => s.at_dot = some st.name) = [B] := by
  obtain ⟨B, hB1, hB2⟩ := h
  refine ⟨B, ?_, hB1⟩
  simp only [uniqPostdotF]
  rw [parents_filter_eq, hB1]
  have hmem : B ∈ (chartGet chart st.scol).states.filter
      (fun s => s.at_dot = some st.name) := by
    rw [hB1]; exact List.mem_singleton.mpr rfl
  have hdl : B.dot < B.expr.length := by
    rw [List.mem_filter] at hmem
    exact at_dot_lt B st.name (by simpa using hmem.2)
  have hq : B.dot = B.expr.length - 1 := by omega
  simp [List.filter, hq]

theorem uniqPostdot_of_ncond (chart : EChart) (pd : Postdots) (st : EState)
    (h : ¬ leoUniqCond chart st) :
    uniqPostdotF chart pd st = (pd, none) := by
  simp only [uniqPostdotF]
  rw [parents_filter_eq]
  set P := (chartGet chart st.scol).states.filter
    (fun s => s.at_dot = some st.name) with hP
  split
  · rfl
  · rename_i hlen
    cases hPc : P with
    | nil => simp [List.filter]
    | cons b0 rest =>
        cases rest with
        | nil =>
            by_cases hq : b0.dot = b0.expr.length - 1
            · exfalso
              apply h
              refine ⟨b0, hPc, ?_⟩
              have hmem : b0 ∈ P := by rw [hPc]; exact List.mem_singleton.mpr rfl
              have hdl : b0.dot < b0.expr.length := by
                rw [hP] at hmem
                rw [List.mem_filter] at hmem
                exact at_dot_lt b0 st.name (by simpa using hmem.2)
              omega
            · simp [List.filter, hq]
        | cons b1 rest2 =>
            exfalso
            rw [hPc] at hlen
            simp at hlen

theorem getTopF_succ_some (chart : EChart) (pd pd2 : Postdots) (st B : EState)
    (fuel : Nat) (h : uniqPostdotF chart pd st = (pd2, some B)) :
    getTopF (fuel + 1) chart pd st =
      match lookupA (chartGet chart B.ecol).transitives B.name with
      | some memo => GTop.val chart pd2 (some memo)
      | none =>
          match getTopF fuel chart pd2 B.advance with
          | GTop.oof => GTop.oof
          | GTop.val ch px r =>
              GTop.val (addTransitive ch B.ecol B.name (r.getD B.advance)).1 px
                (some (addTransitive ch B.ecol B.name (r.getD B.advance)).2) := by
  conv_lhs => unfold getTopF
  rw [h]
  all_goals rfl

theorem getTopF_of_some (chart : EChart) (pd pd2 : Postdots) (st B : EState)
    (fuel : Nat) (h : uniqPostdotF chart pd st = (pd2, some B)) :
    getTopF (fuel + 1) chart pd st = .oof ∨
    ∃ ch2 pd3 top, getTopF (fuel + 1) chart pd st = .val ch2 pd3 (some top) := by
  rw [getTopF_succ_some chart pd pd2 st B fuel h]
  cases hm : lookupA (chartGet chart B.ecol).transitives B.name with
  | some memo => exact Or.inr ⟨chart, pd2, memo, rfl⟩
  | none =>
      cases hr : getTopF fuel chart pd2 B.advance with
      | oof => exact Or.inl rfl
      | val ch3 pd3 r => exact Or.inr ⟨_, pd3, _, rfl⟩

theorem getTopF_of_none (chart : EChart) (pd : Postdots) (st : EState)
    (fuel : Nat) (h : uniqPostdotF chart pd st = (pd, none)) :
    getTopF (fuel + 1) chart pd st = .val chart pd none := by
  unfold getTopF
  rw [h]

/-- C6: when the Leo-optimized completer processes an item, the standard
completion is skipped exactly when the start column contains a unique item
with the dot immediately before the item's name and that dot at the last
position of its alternative (`leoUniqCond`): in that case whatever
`leo_complete` produces is the current column extended with a copy of the
transitive (topmost) item computed by `get_top`; in every other case it
performs exactly the standard Earley completion. -/
theorem C6_leo_complete (chart : EChart) (pd : Postdots) (i : Nat)
    (st : EState) (fuel : Nat) :
    (¬ leoUniqCond chart st →
       leoCompleteF (fuel + 1) chart pd i st =
         some (chartSet chart i
           (earleyComplete chart (chartGet chart i) st), pd)) ∧
    (leoUniqCond chart st →
       ∀ res, leoCompleteF fuel chart pd i st = some res →
         ∃ chart2 pd2 top,
           getTopF fuel chart pd st = .val chart2 pd2 (some top) ∧
           res = (chartSet chart2 i ((chartGet chart2 i).add top.copy),
                  pd2)) := by
  constructor
  · intro hn
    unfold leoCompleteF
    rw [getTopF_of_none chart pd st fuel (uniqPostdot_of_ncond chart pd st hn)]
  · intro hc res hres
    obtain ⟨B, hB, -⟩ := uniqPostdot_of_cond chart pd st hc
    cases fuel with
    | zero =>
        unfold leoCompleteF getTopF at hres
        cases hres
    | succ f =>
        rcases getTopF_of_some chart pd _ st B f hB with hoof | ⟨ch2, pd3, top, hval⟩
        · unfold leoCompleteF at hres
          rw [hoof] at hres
          cases hres
        · unfold leoCompleteF at hres
          rw [hval] at hres
          cases hres
          exact ⟨ch2, pd3, top, hval, rfl⟩

/-- C6 witness: on the concrete chart `chartW6`, completing `stW6` (unique
last-position parent `<B> -> . <A>` in column 0) adds the transitive item's
copy and skips standard completion, while completing `stN6` (no parent)
performs exactly the standard Earley completion. -/
theorem C6_leo_complete_witness :
    leoCompleteF 3 chartW6 [] 1 stN6 =
      some (chartSet chartW6 1
        (earleyComplete chartW6 (chartGet chartW6 1) stN6), []) ∧
    ∃ chart2 pd2 top,
      getTopF 2 chartW6 [] stW6 = GTop.val chart2 pd2 (some top) ∧
      resW6 = (chartSet chart2 1 ((chartGet chart2 1).add top.copy), pd2) := by
  refine ⟨(C6_leo_complete chartW6 [] 1 stN6 2).1 ?_,
    (C6_leo_complete chartW6 [] 1 stW6 2).2 ?_ resW6 (by decide)⟩
  · rintro ⟨B, hB, -⟩
    rw [show (chartGet chartW6 stN6.scol).states.filter
        (fun s => s.at_dot = some stN6.name) = [] from by decide] at hB
    cases hB
  · exact ⟨{ name := "<B>", expr := ["<A>"], dot := 0, scol := 0, ecol := 0 },
      by decide, by decide⟩

theorem go_marked (nxt : GSym) (alts acc : List (List GSym))
    (h : (nullablePassKey.go nxt alts acc).2 = true) :
    ∃ alt ∈ alts, alt.filter (fun t => t ≠ nxt) = [] := by
  induction alts generalizing acc with
  | nil =>
      unfold nullablePassKey.go at h
      simp at h
  | cons alt rest ih =>
      unfold nullablePassKey.go at h
      simp only [] at h
      by_cases he : (alt.filter (fun t => t ≠ nxt)).isEmpty
      · exact ⟨alt, List.mem_cons_self _ _, List.isEmpty_iff.mp he⟩
      · rw [if_neg he] at h
        obtain ⟨a, ha, hf⟩ := ih _ h
        exact ⟨a, List.mem_cons_of_mem _ ha, hf⟩

theorem go_survivor (nxt : GSym) (alts acc : List (List GSym)) (a' : List (List GSym))
    (h : (nullablePassKey.go nxt alts acc).1 = some a') :
    ∀ x ∈ a', x ∈ acc ∨ ∃ alt ∈ alts, x = alt.filter (fun t => t ≠ nxt) ∧ x ≠ [] := by
  induction alts generalizing acc a' with
  | nil =>
      unfold nullablePassKey.go at h
      intro x hx
      by_cases hacc : acc.isEmpty
      · rw [if_pos hacc] at h; cases h
      · rw [if_neg hacc] at h
        cases h
        exact Or.inl (List.mem_reverse.mp hx)
  | cons alt rest ih =>
      unfold nullablePassKey.go at h
      simp only [] at h
      by_cases he : (alt.filter (fun t => t ≠ nxt)).isEmpty
      · rw [if_pos he] at h
        by_cases hacc : acc.isEmpty
        · rw [if_pos hacc] at h; cases h
        · rw [if_neg hacc] at h
          cases h
          intro x hx
          exact Or.inl (List.mem_reverse.mp hx)
      · rw [if_neg he] at h
        intro x hx
        rcases ih _ _ h x hx with hin | ⟨a, ha, hf, hne⟩
        · rcases List.mem_cons.mp hin with rfl | hin2
          · exact Or.inr ⟨alt, List.mem_cons_self _ _, rfl,
              fun hh => he (by rw [hh]; rfl)⟩
          · exact Or.inl hin2
        · exact Or.inr ⟨a, List.mem_cons_of_mem _ ha, hf, hne⟩

theorem go_tracked (nxt : GSym) (alts acc : List (List GSym)) (alt : List GSym)
    (hmem : alt ∈ alts) :
    (nullablePassKey.go nxt alts acc).2 = true ∨
    ∃ a', (nullablePassKey.go nxt alts acc).1 = some a' ∧
      alt.filter (fun t => t ≠ nxt) ∈ a' ∧
      alt.filter (fun t => t ≠ nxt) ≠ [] := by
  induction alts generalizing acc with
  | nil => cases hmem
  | cons b rest ih =>
      unfold nullablePassKey.go
      simp only []
      by_cases he : (b.filter (fun t => t ≠ nxt)).isEmpty
      · rw [if_pos he]
        left
        by_cases hacc : acc.isEmpty
        · rw [if_pos hacc]
        · rw [if_neg hacc]
      · rw [if_neg he]
        rcases List.mem_cons.mp hmem with rfl | hrest
        · -- the tracked alternative is the head; it survives into the
          -- accumulator and the recursion keeps every accumulator entry
          have hkeep : ∀ acc2, alt.filter (fun t => t ≠ nxt) ∈ acc2 →
              (nullablePassKey.go nxt rest acc2).2 = true ∨
              ∃ a', (nullablePassKey.go nxt rest acc2).1 = some a' ∧
                alt.filter (fun t => t ≠ nxt) ∈ a' := by
            clear ih hmem
            induction rest with
            | nil =>
                intro acc2 hin
                unfold nullablePassKey.go
                right
                have hacc2 : acc2.isEmpty = false := by
                  cases acc2 with
                  | nil => cases hin
                  | cons _ _ => rfl
                rw [hacc2]
                exact ⟨acc2.reverse, by simp, List.mem_reverse.mpr hin⟩
            | cons c rest2 ih2 =>
                intro acc2 hin
                unfold nullablePassKey.go
                simp only []
                by_cases hc : (c.filter (fun t => t ≠ nxt)).isEmpty
                · rw [if_pos hc]
                  left
                  by_cases hacc2 : acc2.isEmpty
                  · rw [if_pos hacc2]
                  · rw [if_neg hacc2]
                · rw [if_neg hc]
                  exact ih2 ((c.filter (fun t => t ≠ nxt)) :: acc2)
                    (List.mem_cons_of_mem _ hin)
          rcases hkeep (alt.filter (fun t => t ≠ nxt) :: acc)
              (List.mem_cons_self _ _) with hm | ⟨a', ha', hin⟩
          · exact Or.inl hm
          · exact Or.inr ⟨a', ha', hin,
              fun hh => he (by rw [hh]; rfl)⟩
        · exact ih ((b.filter (fun t => t ≠ nxt)) :: acc) hrest

theorem go_size (nxt : GSym) (alts acc : List (List GSym)) :
    (match (nullablePassKey.go nxt alts acc).1 with
      | none => 0
      | some a' => a'.length) +
    (if (nullablePassKey.go nxt alts acc).2 then 1 else 0) ≤
      acc.length + alts.length := by
  induction alts generalizing acc with
  | nil =>
      unfold nullablePassKey.go
      by_cases hacc : acc.isEmpty
      · rw [if_pos hacc]; simp
      · rw [if_neg hacc]; simp
  | cons alt rest ih =>
      unfold nullablePassKey.go
      simp only []
      by_cases he : (alt.filter (fun t => t ≠ nxt)).isEmpty
      · rw [if_pos he]
        by_cases hacc : acc.isEmpty
        · rw [if_pos hacc]
          simp only [List.length_cons]
          split <;> omega
        · rw [if_neg hacc]
          simp only [List.length_cons, List.length_reverse]
          split <;> omega
      · rw [if_neg he]
        have := ih (alt.filter (fun t => t ≠ nxt) :: acc)
        simp only [List.length_cons] at this ⊢
        omega

theorem pass_eq (nxt k' : GSym) (alts : List (List GSym)) (rest : Grammar) :
    nullablePass nxt ((k', alts) :: rest) =
      ((match (nullablePassKey nxt k' alts).1 with
        | none => (nullablePass nxt rest).1
        | some a => (k', a) :: (nullablePass nxt rest).1),
       if (nullablePassKey nxt k' alts).2 then k' :: (nullablePass nxt rest).2
       else (nullablePass nxt rest).2) := rfl

theorem pass_marked (nxt : GSym) (gcur : Grammar) (k : GSym)
    (h : k ∈ (nullablePass nxt gcur).2) :
    ∃ alts, (k, alts) ∈ gcur ∧ ∃ alt ∈ alts,
      alt.filter (fun t => t ≠ nxt) = [] := by
  induction gcur with
  | nil => cases h
  | cons e rest ih =>
      obtain ⟨k', alts⟩ := e
      rw [pass_eq] at h
      simp only [] at h
      by_cases hb : (nullablePassKey nxt k' alts).2
      · rw [if_pos hb] at h
        rcases List.mem_cons.mp h with rfl | h2
        · obtain ⟨alt, ha, hf⟩ := go_marked nxt alts [] hb
          exact ⟨alts, List.mem_cons_self _ _, alt, ha, hf⟩
        · obtain ⟨al, hm, w⟩ := ih h2
          exact ⟨al, List.mem_cons_of_mem _ hm, w⟩
      · rw [if_neg hb] at h
        obtain ⟨al, hm, w⟩ := ih h
        exact ⟨al, List.mem_cons_of_mem _ hm, w⟩

theorem pass_entry (nxt : GSym) (gcur : Grammar) (k : GSym)
    (a' : List (List GSym)) (h : (k, a') ∈ (nullablePass nxt gcur).1) :
    ∃ alts, (k, alts) ∈ gcur ∧ ∀ x ∈ a', ∃ alt ∈ alts,
      x = alt.filter (fun t => t ≠ nxt) ∧ x ≠ [] := by
  induction gcur with
  | nil => cases h
  | cons e rest ih =>
      obtain ⟨k', alts⟩ := e
      rw [pass_eq] at h
      simp only [] at h
      cases ho : (nullablePassKey nxt k' alts).1 with
      | none =>
          rw [ho] at h
          obtain ⟨al, hm, w⟩ := ih h
          exact ⟨al, List.mem_cons_of_mem _ hm, w⟩
      | some a =>
          rw [ho] at h
          rcases List.mem_cons.mp h with heq | h2
          · injection heq with h1 h2
            subst h1; subst h2
            refine ⟨alts, List.mem_cons_self _ _, ?_⟩
            intro x hx
            rcases go_survivor nxt alts [] a' ho x hx with hacc | ⟨alt, hm, hf, hne⟩
            · cases hacc
            · exact ⟨alt, hm, hf, hne⟩
          · obtain ⟨al, hm, w⟩ := ih h2
            exact ⟨al, List.mem_cons_of_mem _ hm, w⟩

theorem pass_tracked (nxt : GSym) (gcur : Grammar) (k : GSym)
    (alts : List (List GSym)) (alt : List GSym)
    (hmem : (k, alts) ∈ gcur) (halt : alt ∈ alts) :
    k ∈ (nullablePass nxt gcur).2 ∨
    ∃ a', (k, a') ∈ (nullablePass nxt gcur).1 ∧
      alt.filter (fun t => t ≠ nxt) ∈ a' ∧
      alt.filter (fun t => t ≠ nxt) ≠ [] := by
  induction gcur with
  | nil => cases hmem
  | cons e rest ih =>
      obtain ⟨k', alts'⟩ := e
      rw [pass_eq]
      simp only [nullablePassKey]
      rcases List.mem_cons.mp hmem with heq | h2
      · injection heq with h1 h2
        subst h1; subst h2
        rcases go_tracked nxt alts [] alt halt with hm | ⟨a', ha', hin, hne⟩
        · rw [if_pos hm]
          exact Or.inl (List.mem_cons_self _ _)
        · rw [ha']
          refine Or.inr ⟨a', List.mem_cons_self _ _, hin, hne⟩
      · rcases ih h2 with hm | ⟨a', ha', hin, hne⟩
        · left
          by_cases hb : (nullablePassKey.go nxt alts' []).2
          · rw [if_pos hb]; exact List.mem_cons_of_mem _ hm
          · rw [if_neg hb]; exact hm
        · right
          refine ⟨a', ?_, hin, hne⟩
          cases ho : (nullablePassKey.go nxt alts' []).1 with
          | none => exact ha'
          | some a => exact List.mem_cons_of_mem _ ha'

theorem pass_size (nxt : GSym) (gcur : Grammar) :
    gSize (nullablePass nxt gcur).1 + (nullablePass nxt gcur).2.length ≤
      gSize gcur := by
  induction gcur with
  | nil => simp [nullablePass, gSize]
  | cons e rest ih =>
      obtain ⟨k', alts⟩ := e
      rw [pass_eq]
      simp only []
      have hgo := go_size nxt alts []
      simp only [List.length_nil, Nat.zero_add] at hgo
      have hsz : gSize ((k', alts) :: rest) = alts.length + gSize rest := by
        simp [gSize]
      rw [hsz]
      simp only [nullablePassKey]
      cases ho : (nullablePassKey.go nxt alts []).1 with
      | none =>
          rw [ho] at hgo
          simp only [] at hgo ⊢
          by_cases hb : (nullablePassKey.go nxt alts []).2
          · rw [if_pos hb] at hgo ⊢
            simp only [List.length_cons]
            omega
          · rw [if_neg hb] at hgo ⊢
            omega
      | some a =>
          rw [ho] at hgo
          simp only [] at hgo ⊢
          have hg2 : gSize ((k', a) :: (nullablePass nxt rest).1) =
              a.length + gSize (nullablePass nxt rest).1 := by simp [gSize]
          rw [hg2]
          by_cases hb : (nullablePassKey.go nxt alts []).2
          · rw [if_pos hb] at hgo ⊢
            simp only [List.length_cons]
            omega
          · rw [if_neg hb] at hgo ⊢
            omega

theorem loop_eq (g : Grammar) (fuel : Nat) (ns : List GSym) (nxt : GSym)
    (unproc : List GSym) (gcur : Grammar) :
    nullableLoop g (fuel + 1) ns (nxt :: unproc) gcur =
      nullableLoop g fuel
        (ns ++ (nullablePass nxt gcur).2.filter (fun k => ¬ ns.contains k))
        (unproc ++ (nullablePass nxt gcur).2) (nullablePass nxt gcur).1 := rfl

theorem mem_ns_next (ns marked : List GSym) (x : GSym) :
    x ∈ ns ++ marked.filter (fun k => ¬ ns.contains k) ↔
      x ∈ ns ∨ x ∈ marked := by
  rw [List.mem_append]
  constructor
  · rintro (h | h)
    · exact Or.inl h
    · exact Or.inr (List.mem_of_mem_filter h)
  · rintro (h | h)
    · exact Or.inl h
    · by_cases hn : x ∈ ns
      · exact Or.inl hn
      · refine Or.inr (List.mem_filter.mpr ⟨h, ?_⟩)
        simp [hn]

theorem remg_pass (s nxt : GSym) (gcur : Grammar) (h : RemG s gcur) :
    RemG s (nullablePass nxt gcur).1 := by
  rintro ⟨k, a'⟩ he a ha hs
  obtain ⟨alts, hm, hw⟩ := pass_entry nxt gcur k a' he
  obtain ⟨alt, halt, rfl, -⟩ := hw a ha
  exact h (k, alts) hm alt halt (List.mem_of_mem_filter hs)

theorem remg_nxt (nxt : GSym) (gcur : Grammar) :
    RemG nxt (nullablePass nxt gcur).1 := by
  rintro ⟨k, a'⟩ he a ha hs
  obtain ⟨alts, hm, hw⟩ := pass_entry nxt gcur k a' he
  obtain ⟨alt, halt, rfl, -⟩ := hw a ha
  have := List.of_mem_filter hs
  simp at this

theorem filter_empty_all_nxt (nxt : GSym) (alt : List GSym)
    (h : alt.filter (fun t => t ≠ nxt) = []) :
    ∀ x ∈ alt, x = nxt := by
  intro x hx
  by_contra hne
  have : x ∈ alt.filter (fun t => t ≠ nxt) :=
    List.mem_filter.mpr ⟨hx, by simp [hne]⟩
  rw [h] at this
  cases this

theorem loop_keys (g : Grammar) : ∀ (fuel : Nat) (ns queue : List GSym)
    (gcur : Grammar),
    (∀ s ∈ ns, s ∈ gKeys g) → (∀ e ∈ gcur, e.1 ∈ gKeys g) →
    ∀ s ∈ nullableLoop g fuel ns queue gcur, s ∈ gKeys g := by
  intro fuel
  induction fuel with
  | zero =>
      intro ns queue gcur hns _ s hs
      exact hns s hs
  | succ f ih =>
      intro ns queue gcur hns hg s hs
      cases queue with
      | nil => exact hns s hs
      | cons nxt unproc =>
          rw [loop_eq] at hs
          refine ih _ _ _ ?_ ?_ s hs
          · intro t ht
            rcases (mem_ns_next ns _ t).mp ht with h | h
            · exact hns t h
            · obtain ⟨alts, hm, -⟩ := pass_marked nxt gcur t h
              exact hg (t, alts) hm
          · intro e he
            obtain ⟨alts, hm, -⟩ := pass_entry nxt gcur e.1 e.2 he
            exact hg (e.1, alts) hm

theorem loop_sound (g : Grammar) : ∀ (fuel : Nat) (ns queue : List GSym)
    (gcur : Grammar),
    (∀ s ∈ queue, s ∈ ns) →
    (∀ e ∈ gcur, ∀ a' ∈ e.2, ∃ altsO aO, (e.1, altsO) ∈ g ∧ aO ∈ altsO ∧
       (∀ x ∈ a', x ∈ aO) ∧ (∀ x ∈ aO, x ∈ a' ∨ x ∈ ns)) →
    (∀ s ∈ ns, ∃ altsO aO, (s, altsO) ∈ g ∧ aO ∈ altsO ∧
       ∀ x ∈ aO, x ∈ ns) →
    ∀ s ∈ nullableLoop g fuel ns queue gcur, ∃ altsO aO, (s, altsO) ∈ g ∧
      aO ∈ altsO ∧ ∀ x ∈ aO, x ∈ nullableLoop g fuel ns queue gcur := by
  intro fuel
  induction fuel with
  | zero =>
      intro ns queue gcur _ _ hgood s hs
      exact hgood s hs
  | succ f ih =>
      intro ns queue gcur hq hginv hgood s hs
      cases queue with
      | nil => exact hgood s hs
      | cons nxt unproc =>
          rw [loop_eq] at hs ⊢
          refine ih _ _ _ ?_ ?_ ?_ s hs
          · intro t ht
            rcases List.mem_append.mp ht with h | h
            · exact (mem_ns_next ns _ t).mpr (Or.inl (hq t (List.mem_cons_of_mem _ h)))
            · exact (mem_ns_next ns _ t).mpr (Or.inr h)
          · rintro ⟨k, a2⟩ he a'' ha''
            obtain ⟨alts, hm, hw⟩ := pass_entry nxt gcur k a2 he
            obtain ⟨alt, halt, rfl, -⟩ := hw a'' ha''
            obtain ⟨altsO, aO, hgo, haO, hsub, hcov⟩ := hginv (k, alts) hm alt halt
            refine ⟨altsO, aO, hgo, haO, ?_, ?_⟩
            · intro x hx
              exact hsub x (List.mem_of_mem_filter hx)
            · intro x hx
              rcases hcov x hx with hin | hns
              · by_cases hxn : x = nxt
                · subst hxn
                  exact Or.inr ((mem_ns_next ns _ x).mpr
                    (Or.inl (hq x (List.mem_cons_self _ _))))
                · exact Or.inl (List.mem_filter.mpr ⟨hin, by simp [hxn]⟩)
              · exact Or.inr ((mem_ns_next ns _ x).mpr (Or.inl hns))
          · intro t ht
            rcases (mem_ns_next ns _ t).mp ht with h | h
            · obtain ⟨altsO, aO, hgo, haO, hcov⟩ := hgood t h
              exact ⟨altsO, aO, hgo, haO, fun x hx =>
                (mem_ns_next ns _ x).mpr (Or.inl (hcov x hx))⟩
            · obtain ⟨alts, hm, alt, halt, hf⟩ := pass_marked nxt gcur t h
              obtain ⟨altsO, aO, hgo, haO, hsub, hcov⟩ := hginv (t, alts) hm alt halt
              refine ⟨altsO, aO, hgo, haO, ?_⟩
              intro x hx
              rcases hcov x hx with hin | hns
              · have hxn := filter_empty_all_nxt nxt alt hf x hin
                subst hxn
                exact (mem_ns_next ns _ x).mpr
                  (Or.inl (hq x (List.mem_cons_self _ _)))
              · exact (mem_ns_next ns _ x).mpr (Or.inl hns)

theorem loop_closure (g : Grammar) (k : GSym) (a0 : List GSym) :
    ∀ (fuel : Nat) (ns queue : List GSym) (gcur : Grammar),
    gSize gcur + queue.length < fuel →
    (∀ s ∈ queue, s ∈ ns) →
    (∀ s ∈ ns, s ∉ queue → RemG s gcur) →
    (k ∈ ns ∨ ∃ alts a', (k, alts) ∈ gcur ∧ a' ∈ alts ∧ a' ≠ [] ∧
       (∀ x ∈ a', x ∈ a0) ∧ (∀ x ∈ a0, x ∈ a' ∨ (x ∈ ns ∧ RemG x gcur))) →
    (∀ x ∈ a0, x ∈ nullableLoop g fuel ns queue gcur) →
    k ∈ nullableLoop g fuel ns queue gcur := by
  intro fuel
  induction fuel with
  | zero =>
      intro ns queue gcur hfuel _ _ _ _
      exact absurd hfuel (Nat.not_lt_zero _)
  | succ f ih =>
      intro ns queue gcur hfuel hq hrem htrack hall
      cases queue with
      | nil =>
          rcases htrack with hin | ⟨alts, a', hment, ha', hne, hsub, -⟩
          · exact hin
          · exfalso
            obtain ⟨x, hx⟩ := List.exists_mem_of_ne_nil a' hne
            have hxns : x ∈ ns := hall x (hsub x hx)
            exact hrem x hxns (by simp) (k, alts) hment a' ha' hx
      | cons nxt unproc =>
          rw [loop_eq] at hall ⊢
          have hnxt : nxt ∈ ns := hq nxt (List.mem_cons_self _ _)
          refine ih _ _ _ ?_ ?_ ?_ ?_ hall
          · have hps := pass_size nxt gcur
            simp only [List.length_append, List.length_cons] at hfuel ⊢
            omega
          · intro t ht
            rcases List.mem_append.mp ht with h | h
            · exact (mem_ns_next ns _ t).mpr
                (Or.inl (hq t (List.mem_cons_of_mem _ h)))
            · exact (mem_ns_next ns _ t).mpr (Or.inr h)
          · intro t htns htq
            have htm : t ∉ (nullablePass nxt gcur).2 := by
              intro hc
              exact htq (List.mem_append.mpr (Or.inr hc))
            have htns2 : t ∈ ns := by
              rcases (mem_ns_next ns _ t).mp htns with h | h
              · exact h
              · exact absurd h htm
            by_cases htx : t = nxt
            · subst htx
              exact remg_nxt t gcur
            · refine remg_pass t nxt gcur (hrem t htns2 ?_)
              intro hc
              rcases List.mem_cons.mp hc with h | h
              · exact htx h
              · exact htq (List.mem_append.mpr (Or.inl h))
          · rcases htrack with hin | ⟨alts, a', hment, ha', hne, hsub, hcov⟩
            · exact Or.inl ((mem_ns_next ns _ k).mpr (Or.inl hin))
            · rcases pass_tracked nxt gcur k alts a' hment ha' with hm |
                ⟨na', hna', hin2, hne2⟩
              · exact Or.inl ((mem_ns_next ns _ k).mpr (Or.inr hm))
              · right
                refine ⟨na', a'.filter (fun t => t ≠ nxt), hna', hin2, hne2,
                  ?_, ?_⟩
                · intro x hx
                  exact hsub x (List.mem_of_mem_filter hx)
                · intro x hx
                  rcases hcov x hx with hin3 | ⟨hns3, hrem3⟩
                  · by_cases hxn : x = nxt
                    · subst hxn
                      exact Or.inr ⟨(mem_ns_next ns _ x).mpr (Or.inl hnxt),
                        remg_nxt x gcur⟩
                    · exact Or.inl (List.mem_filter.mpr ⟨hin3, by simp [hxn]⟩)
                  · exact Or.inr ⟨(mem_ns_next ns _ x).mpr (Or.inl hns3),
                      remg_pass x nxt gcur hrem3⟩

theorem nullableFn_eq (g : Grammar) :
    nullableFn g = nullableLoop g ((nullInit g).length + gSize g + 1)
      (nullInit g) (nullInit g) (remTerminals g) := rfl

theorem gLookup_mem (g : Grammar) (k : GSym) (alts : List (List GSym))
    (h : gLookup g k = some alts) : (k, alts) ∈ g := by
  induction g with
  | nil => cases h
  | cons ka rest ih =>
      obtain ⟨k', alts'⟩ := ka
      unfold gLookup at h
      by_cases he : k' = k
      · rw [if_pos he] at h
        cases h
        subst he
        exact List.mem_cons_self _ _
      · rw [if_neg he] at h
        exact List.mem_cons_of_mem _ (ih h)

theorem mem_gLookup_nodup (g : Grammar) (k : GSym) (alts : List (List GSym))
    (hnd : (gKeys g).Nodup) (h : (k, alts) ∈ g) : gLookup g k = some alts := by
  induction g with
  | nil => cases h
  | cons ka rest ih =>
      obtain ⟨k', alts'⟩ := ka
      rcases List.mem_cons.mp h with heq | hmem
      · injection heq with h1 h2
        subst h1; subst h2
        unfold gLookup
        rw [if_pos rfl]
      · unfold gLookup
        have hk : k ∈ gKeys rest := List.mem_map.mpr ⟨(k, alts), hmem, rfl⟩
        have hne : k' ≠ k := by
          intro hc
          subst hc
          exact (List.nodup_cons.mp hnd).1 hk
        rw [if_neg hne]
        exact ih (List.nodup_cons.mp hnd).2 hmem

theorem gAlts_some (g : Grammar) (k : GSym) (a : List GSym)
    (h : a ∈ gAlts g k) : ∃ alts, gLookup g k = some alts ∧ a ∈ alts := by
  unfold gAlts at h
  cases hl : gLookup g k with
  | none => rw [hl] at h; cases h
  | some alts => rw [hl] at h; exact ⟨alts, rfl, h⟩

theorem remT_mem (g : Grammar) (k : GSym) (altsO : List (List GSym))
    (h : (k, altsO) ∈ g)
    (hne : altsO.filter (fun alt => alt.all (fun t => isNt t)) ≠ []) :
    (k, altsO.filter (fun alt => alt.all (fun t => isNt t))) ∈
      remTerminals g := by
  unfold remTerminals
  refine List.mem_filterMap.mpr ⟨(k, altsO), h, ?_⟩
  simp only []
  rw [if_neg (by simpa [List.isEmpty_iff] using hne)]

theorem remT_entry (g : Grammar) (e : GSym × List (List GSym))
    (h : e ∈ remTerminals g) :
    ∃ ka ∈ g, e.1 = ka.1 ∧ ∀ a ∈ e.2, a ∈ ka.2 := by
  unfold remTerminals at h
  obtain ⟨ka, hka, hf⟩ := List.mem_filterMap.mp h
  by_cases he : (ka.2.filter (fun alt => alt.all (fun t => isNt t))).isEmpty
  · rw [if_pos he] at hf; cases hf
  · rw [if_neg he] at hf
    cases hf
    exact ⟨ka, hka, rfl, fun a ha => List.mem_of_mem_filter ha⟩

theorem remT_cons (ka : GSym × List (List GSym)) (rest : Grammar) :
    remTerminals (ka :: rest) =
      if (ka.2.filter (fun alt => alt.all (fun t => isNt t))).isEmpty then
        remTerminals rest
      else (ka.1, ka.2.filter (fun alt => alt.all (fun t => isNt t))) ::
        remTerminals rest := by
  by_cases he : (ka.2.filter (fun alt => alt.all (fun t => isNt t))).isEmpty
  · rw [if_pos he]
    unfold remTerminals
    rw [List.filterMap_cons]
    simp [he]
  · rw [if_neg he]
    unfold remTerminals
    rw [List.filterMap_cons]
    simp [he]

theorem gSize_cons (ka : GSym × List (List GSym)) (rest : Grammar) :
    gSize (ka :: rest) = ka.2.length + gSize rest := by
  simp [gSize]

theorem remT_size (g : Grammar) : gSize (remTerminals g) ≤ gSize g := by
  induction g with
  | nil => simp [remTerminals, gSize]
  | cons ka rest ih =>
      rw [remT_cons, gSize_cons]
      have hle : (ka.2.filter (fun alt => alt.all (fun t => isNt t))).length ≤
          ka.2.length := List.length_filter_le _ _
      by_cases he : (ka.2.filter (fun alt => alt.all (fun t => isNt t))).isEmpty
      · rw [if_pos he]
        omega
      · rw [if_neg he, gSize_cons]
        simp only []
        omega

theorem mem_nullInit (g : Grammar) (k : GSym) :
    k ∈ nullInit g ↔ ∃ alts, (k, alts) ∈ g ∧ [] ∈ alts := by
  unfold nullInit
  rw [List.mem_map]
  constructor
  · rintro ⟨ka, hka, rfl⟩
    rw [List.mem_filter] at hka
    refine ⟨ka.2, ?_, ?_⟩
    · rw [show (ka.1, ka.2) = ka from rfl]
      exact hka.1
    · have h2 := hka.2
      simp only [List.contains] at h2
      exact List.mem_of_elem_eq_true h2
  · rintro ⟨alts, hm, hnil⟩
    refine ⟨(k, alts), List.mem_filter.mpr ⟨hm, ?_⟩, rfl⟩
    simp only [List.contains]
    exact List.elem_eq_true_of_mem hnil

theorem gMem_of_key (g : Grammar) (s : GSym) (h : s ∈ gKeys g) :
    gMem g s = true := by
  induction g with
  | nil => cases h
  | cons ka rest ih =>
      rcases List.mem_cons.mp h with heq | hm
      · unfold gMem gLookup
        rw [if_pos heq.symm]
        rfl
      · by_cases he : ka.1 = s
        · unfold gMem gLookup
          rw [if_pos he]
          rfl
        · unfold gMem gLookup
          rw [if_neg he]
          exact ih hm

theorem nullable_keys (g : Grammar) (s : GSym) (hs : s ∈ nullableFn g) :
    s ∈ gKeys g := by
  rw [nullableFn_eq] at hs
  refine loop_keys g _ _ _ _ ?_ ?_ s hs
  · intro t ht
    obtain ⟨alts, hm, -⟩ := (mem_nullInit g t).mp ht
    exact List.mem_map.mpr ⟨(t, alts), hm, rfl⟩
  · intro e he
    obtain ⟨ka, hka, h1, -⟩ := remT_entry g e he
    rw [h1]
    exact List.mem_map.mpr ⟨ka, hka, rfl⟩

theorem nullable_closed (g : Grammar) (k : GSym) (a : List GSym)
    (hk : ∀ ka ∈ g, isNt ka.1 = true)
    (ha : a ∈ gAlts g k) (hall : ∀ s ∈ a, s ∈ nullableFn g) :
    k ∈ nullableFn g := by
  obtain ⟨altsO, hlk, haO⟩ := gAlts_some g k a ha
  have hent : (k, altsO) ∈ g := gLookup_mem g k altsO hlk
  rw [nullableFn_eq] at hall ⊢
  cases hcase : a with
  | nil =>
      subst hcase
      refine loop_closure g k [] _ _ _ _ ?_ (fun s hs => hs) ?_ ?_ (by simp)
      · have := remT_size g
        omega
      · intro s hs hs2
        exact absurd hs hs2
      · exact Or.inl ((mem_nullInit g k).mpr ⟨altsO, hent, haO⟩)
  | cons a1 arest =>
      subst hcase
      have hterm : (a1 :: arest).all (fun t => isNt t) = true := by
        rw [List.all_eq_true]
        intro x hx
        have hxk := nullable_keys g x (by rw [nullableFn_eq]; exact hall x hx)
        obtain ⟨ka, hka, rfl⟩ := List.mem_map.mp hxk
        exact hk ka hka
      have hmemF : (a1 :: arest) ∈
          altsO.filter (fun alt => alt.all (fun t => isNt t)) :=
        List.mem_filter.mpr ⟨haO, hterm⟩
      have hne : altsO.filter (fun alt => alt.all (fun t => isNt t)) ≠ [] := by
        intro hc
        rw [hc] at hmemF
        cases hmemF
      refine loop_closure g k (a1 :: arest) _ _ _ _ ?_ (fun s hs => hs) ?_ ?_ hall
      · have := remT_size g
        omega
      · intro s hs hs2
        exact absurd hs hs2
      · refine Or.inr ⟨altsO.filter (fun alt => alt.all (fun t => isNt t)),
          a1 :: arest, remT_mem g k altsO hent hne, hmemF, by simp,
          fun x hx => hx, fun x hx => Or.inl hx⟩

theorem nullable_gives_alt (g : Grammar) (k : GSym)
    (hnd : (gKeys g).Nodup) (h : k ∈ nullableFn g) :
    ∃ a ∈ gAlts g k, ∀ s ∈ a, s ∈ nullableFn g ∧ gMem g s = true := by
  rw [nullableFn_eq] at h
  have hmain := loop_sound g _ _ _ _ (fun s hs => hs) ?_ ?_ k h
  · obtain ⟨altsO, aO, hgo, haO, hcov⟩ := hmain
    refine ⟨aO, ?_, ?_⟩
    · unfold gAlts
      rw [mem_gLookup_nodup g k altsO hnd hgo]
      exact haO
    · intro s hs
      have hsn : s ∈ nullableFn g := by
        rw [nullableFn_eq]; exact hcov s hs
      exact ⟨hsn, gMem_of_key g s (nullable_keys g s hsn)⟩
  · rintro ⟨k2, a2⟩ he a2x ha2x
    obtain ⟨ka, hka, h1, hsub⟩ := remT_entry g (k2, a2) he
    refine ⟨ka.2, a2x, ?_, hsub a2x ha2x, fun x hx => hx, fun x hx => Or.inl hx⟩
    rw [show (k2, a2).1 = k2 from rfl] at h1
    rw [h1]
    rw [show (ka.1, ka.2) = ka from rfl]
    exact hka
  · intro s hs
    obtain ⟨alts, hm, hnil⟩ := (mem_nullInit g s).mp hs
    exact ⟨alts, [], hm, hnil, by simp⟩

theorem add_app (c : Col) (s : EState) :
    (c.add s).states = c.states ∨
    (c.add s).states = c.states ++ [{ s with ecol := c.index }] := by
  unfold Col.add
  by_cases h : c.states.any (fun t => t.key = s.key)
  · rw [if_pos h]; exact Or.inl rfl
  · rw [if_neg h]; exact Or.inr rfl

theorem add_ex (c : Col) (s : EState) :
    ∃ ext, (c.add s).states = c.states ++ ext := by
  rcases add_app c s with h | h
  · exact ⟨[], by rw [h, List.append_nil]⟩
  · exact ⟨_, h⟩

theorem keyIn_app (c c' : Col) (s : EState)
    (h : ∃ ext, c'.states = c.states ++ ext) (hk : keyIn s c) : keyIn s c' := by
  obtain ⟨ext, hext⟩ := h
  obtain ⟨t, ht, htk⟩ := hk
  exact ⟨t, by rw [hext]; exact List.mem_append_left _ ht, htk⟩

theorem add_keyIn_self (c : Col) (s : EState) : keyIn s (c.add s) := by
  unfold Col.add
  by_cases h : c.states.any (fun t => t.key = s.key)
  · rw [if_pos h]
    obtain ⟨t, ht, htk⟩ := List.any_eq_true.mp h
    exact ⟨t, ht, by simpa using htk⟩
  · rw [if_neg h]
    refine ⟨{ s with ecol := c.index }, ?_, rfl⟩
    simp

theorem add_mem (c : Col) (s t : EState) (ht : t ∈ (c.add s).states) :
    t ∈ c.states ∨ t = { s with ecol := c.index } := by
  rcases add_app c s with h | h
  · rw [h] at ht; exact Or.inl ht
  · rw [h] at ht
    rcases List.mem_append.mp ht with h2 | h2
    · exact Or.inl h2
    · exact Or.inr (by simpa using h2)

theorem add_nodup (c : Col) (s : EState)
    (h : (c.states.map EState.key).Nodup) :
    ((c.add s).states.map EState.key).Nodup := by
  unfold Col.add
  by_cases ha : c.states.any (fun t => t.key = s.key)
  · rw [if_pos ha]; exact h
  · rw [if_neg ha]
    rw [List.map_append]
    simp only [List.map_cons, List.map_nil]
    rw [List.nodup_append]
    refine ⟨h, List.nodup_singleton _, ?_⟩
    intro x hx
    simp only [List.mem_singleton]
    intro hc
    obtain ⟨t, ht, htk⟩ := List.mem_map.mp hx
    rw [List.any_eq_true] at ha
    push_neg at ha
    have hkey : ({ s with ecol := c.index } : EState).key = s.key := rfl
    rw [hc, hkey] at htk
    have := ha t ht
    simp [htk] at this

theorem foldl_add_ex {α : Type} (l : List α) (f : α → EState) (c : Col) :
    ∃ ext, (l.foldl (fun c2 x => c2.add (f x)) c).states = c.states ++ ext := by
  induction l generalizing c with
  | nil => exact ⟨[], by simp⟩
  | cons x rest ih =>
      obtain ⟨ext1, h1⟩ := add_ex c (f x)
      obtain ⟨ext2, h2⟩ := ih (c.add (f x))
      exact ⟨ext1 ++ ext2, by
        simp only [List.foldl_cons]
        rw [h2, h1, List.append_assoc]⟩

theorem foldl_add_keyIn {α : Type} (l : List α) (f : α → EState) (c : Col) :
    ∀ x ∈ l, keyIn (f x) (l.foldl (fun c2 y => c2.add (f y)) c) := by
  induction l generalizing c with
  | nil => intro x hx; cases hx
  | cons y rest ih =>
      intro x hx
      rcases List.mem_cons.mp hx with rfl | hx2
      · simp only [List.foldl_cons]
        exact keyIn_app _ _ _ (foldl_add_ex rest f (c.add (f x)))
          (add_keyIn_self c (f x))
      · simp only [List.foldl_cons]
        exact ih (c.add (f y)) x hx2

theorem foldl_add_nodup {α : Type} (l : List α) (f : α → EState) (c : Col)
    (h : (c.states.map EState.key).Nodup) :
    ((l.foldl (fun c2 x => c2.add (f x)) c).states.map EState.key).Nodup := by
  induction l generalizing c with
  | nil => exact h
  | cons x rest ih =>
      simp only [List.foldl_cons]
      exact ih (c.add (f x)) (add_nodup c (f x) h)

theorem foldl_add_mem {α : Type} (l : List α) (f : α → EState) (c : Col)
    (t : EState) (ht : t ∈ (l.foldl (fun c2 x => c2.add (f x)) c).states) :
    t ∈ c.states ∨ ∃ x ∈ l, t = { f x with ecol := c.index } := by
  induction l generalizing c with
  | nil => exact Or.inl ht
  | cons x rest ih =>
      simp only [List.foldl_cons] at ht
      rcases ih (c.add (f x)) ht with h | ⟨y, hy, hty⟩
      · rcases add_mem c (f x) t h with h2 | h2
        · exact Or.inl h2
        · exact Or.inr ⟨x, List.mem_cons_self _ _, h2⟩
      · rw [Col.add_index] at hty
        exact Or.inr ⟨y, List.mem_cons_of_mem _ hy, hty⟩

theorem at_dot_none_of_finished (st : EState) (h : st.finished = true) :
    st.at_dot = none := by
  unfold EState.finished at h
  unfold EState.at_dot
  rw [List.get?_eq_none]
  exact of_decide_eq_true h

theorem at_dot_some_lt (st : EState) (sym : GSym)
    (h : st.at_dot = some sym) : st.dot < st.expr.length := by
  unfold EState.at_dot at h
  by_contra hc
  rw [List.get?_eq_none.mpr (Nat.le_of_not_lt hc)] at h
  cases h

theorem length_le_of_nodup_subset {α : Type} [DecidableEq α]
    (l l' : List α) (hn : l.Nodup) (hs : ∀ x ∈ l, x ∈ l') :
    l.length ≤ l'.length := by
  calc l.length = l.toFinset.card := (List.toFinset_card_of_nodup hn).symm
    _ ≤ l'.toFinset.card := Finset.card_le_card
        (fun x hx => List.mem_toFinset.mpr (hs x (List.mem_toFinset.mp hx)))
    _ ≤ l'.length := l'.toFinset_card_le

theorem allKeys_length (g : Grammar) : (allKeys g).length = stateBound g := by
  unfold allKeys stateBound
  rw [List.length_bind]
  congr 1
  apply List.map_congr_left
  intro ka _
  simp only [Function.comp_apply]
  rw [List.length_bind]
  congr 1
  apply List.map_congr_left
  intro alt _
  simp only [Function.comp_apply]
  rw [List.length_map, List.length_range]

theorem key_mem_allKeys (g : Grammar) (st : EState)
    (h0 : st.scol = 0) (ha : st.expr ∈ gAlts g st.name)
    (hd : st.dot ≤ st.expr.length) : st.key ∈ allKeys g := by
  obtain ⟨alts, hlk, hmem⟩ := gAlts_some g st.name st.expr ha
  have hent : (st.name, alts) ∈ g := gLookup_mem g st.name alts hlk
  unfold allKeys
  rw [List.mem_bind]
  refine ⟨(st.name, alts), hent, ?_⟩
  rw [List.mem_bind]
  refine ⟨st.expr, hmem, ?_⟩
  rw [List.mem_map]
  refine ⟨st.dot, List.mem_range.mpr (by omega), ?_⟩
  unfold EState.key
  rw [h0]

theorem col_length_bound (g : Grammar) (eps : List GSym) (ch : EChart)
    (hinv : c8Inv g eps ch) :
    (chartGet ch 0).states.length ≤ stateBound g := by
  obtain ⟨-, -, hnd, hmem⟩ := hinv
  have hlen : (chartGet ch 0).states.length =
      ((chartGet ch 0).states.map EState.key).length := by
    rw [List.length_map]
  rw [hlen, ← allKeys_length g]
  refine length_le_of_nodup_subset _ _ hnd ?_
  intro k hk
  obtain ⟨st, hst, rfl⟩ := List.mem_map.mp hk
  obtain ⟨h0, ha, hd, -⟩ := hmem st hst
  exact key_mem_allKeys g st h0 ha hd

theorem itemOk_ecol (g : Grammar) (eps : List GSym) (st : EState) (e : Nat)
    (h : itemOk g eps st) : itemOk g eps { st with ecol := e } := h

theorem itemOk_advance (g : Grammar) (eps : List GSym) (st : EState)
    (sym : GSym) (hok : itemOk g eps st) (hdot : st.at_dot = some sym)
    (heps : sym ∈ eps) : itemOk g eps st.advance := by
  obtain ⟨h0, ha, hd, hpfx⟩ := hok
  have hlt : st.dot < st.expr.length := at_dot_some_lt st sym hdot
  refine ⟨h0, ha, by unfold EState.advance; simp only []; omega, ?_⟩
  intro j x hj hx
  unfold EState.advance at hj hx
  simp only [] at hj hx
  by_cases hje : j = st.dot
  · subst hje
    unfold EState.at_dot at hdot
    rw [hdot] at hx
    cases hx
    exact heps
  · exact hpfx j x (by omega) hx

theorem predict_eq (g : Grammar) (eps : List GSym) (col : Col) (sym : GSym)
    (st : EState) :
    predict g eps col sym st =
      (if eps.contains sym then
        ((gAlts g sym).foldl (fun c alt => c.add (predItem sym col.index alt))
          col).add st.advance
      else (gAlts g sym).foldl (fun c alt => c.add (predItem sym col.index alt))
        col) := rfl

theorem earleyComplete_eq (chart : EChart) (col : Col) (st : EState) :
    earleyComplete chart col st =
      ((chartGet chart st.scol).states.filter
        (fun p => p.at_dot = some st.name)).foldl
        (fun c p => c.add p.advance) col := rfl

theorem states_eq_trans (c2 c c0 : Col) (e2 e1 : List EState)
    (h2 : c2.states = c.states ++ e2) (h1 : c.states = c0.states ++ e1) :
    c2.states = c0.states ++ (e1 ++ e2) := by
  rw [h2, h1, List.append_assoc]

theorem predict_ex (g : Grammar) (eps : List GSym) (col : Col) (sym : GSym)
    (st : EState) :
    ∃ ext, (predict g eps col sym st).states = col.states ++ ext := by
  rw [predict_eq]
  obtain ⟨e1, h1⟩ := foldl_add_ex (gAlts g sym) (predItem sym col.index) col
  by_cases hc : eps.contains sym
  · rw [if_pos hc]
    obtain ⟨e2, h2⟩ := add_ex ((gAlts g sym).foldl
      (fun c alt => c.add (predItem sym col.index alt)) col) st.advance
    exact ⟨e1 ++ e2, states_eq_trans _ _ _ _ _ h2 h1⟩
  · rw [if_neg hc]
    exact ⟨e1, h1⟩

theorem earleyComplete_ex (chart : EChart) (col : Col) (st : EState) :
    ∃ ext, (earleyComplete chart col st).states = col.states ++ ext := by
  rw [earleyComplete_eq]
  exact foldl_add_ex ((chartGet chart st.scol).states.filter
    (fun p => p.at_dot = some st.name)) (fun p => p.advance) col

theorem fillStep_app0 (g : Grammar) (eps : List GSym) (ch : EChart)
    (ptr : Nat) (hlen : ch.length = 1) :
    ∃ ext, (chartGet (fillStep g eps ch 0 ptr) 0).states =
      (chartGet ch 0).states ++ ext := by
  unfold fillStep
  cases hget : (chartGet ch 0).states.get? ptr with
  | none => exact ⟨[], by simp⟩
  | some st =>
      dsimp only []
      split
      · rw [chartGet_set_self _ _ _ (by omega)]
        exact earleyComplete_ex ch (chartGet ch 0) st
      · split
        · exact ⟨[], by simp⟩
        · split
          · rw [chartGet_set_self _ _ _ (by omega)]
            exact predict_ex g eps (chartGet ch 0) _ st
          · split
            · exact ⟨[], by simp⟩
            · rename_i hge
              exfalso
              exact hge (by omega)

theorem itemOk_predItem (g : Grammar) (eps : List GSym) (sym : GSym)
    (alt : List GSym) (halt : alt ∈ gAlts g sym) :
    itemOk g eps (predItem sym 0 alt) := by
  refine ⟨rfl, halt, Nat.zero_le _, ?_⟩
  intro j x hj hx
  cases hj

theorem predict_col_inv (g : Grammar) (eps : List GSym) (col : Col)
    (sym : GSym) (st : EState) (hidx : col.index = 0)
    (hnd : (col.states.map EState.key).Nodup)
    (hok : ∀ t ∈ col.states, itemOk g eps t)
    (hst : itemOk g eps st) (hdm : st.at_dot = some sym) :
    ((predict g eps col sym st).states.map EState.key).Nodup ∧
    ∀ t ∈ (predict g eps col sym st).states, itemOk g eps t := by
  rw [predict_eq]
  have hfnd := foldl_add_nodup (gAlts g sym) (predItem sym col.index) col hnd
  have hfok : ∀ t ∈ ((gAlts g sym).foldl
      (fun c alt => c.add (predItem sym col.index alt)) col).states,
      itemOk g eps t := by
    intro t ht
    rcases foldl_add_mem _ _ _ t ht with h | ⟨alt, halt, rfl⟩
    · exact hok t h
    · refine itemOk_ecol g eps _ _ ?_
      rw [hidx]
      exact itemOk_predItem g eps sym alt halt
  by_cases hc : eps.contains sym
  · rw [if_pos hc]
    refine ⟨add_nodup _ _ hfnd, ?_⟩
    intro t ht
    rcases add_mem _ _ t ht with h | rfl
    · exact hfok t h
    · refine itemOk_ecol g eps _ _ ?_
      exact itemOk_advance g eps st sym hst hdm (List.mem_of_elem_eq_true hc)
  · rw [if_neg hc]
    exact ⟨hfnd, hfok⟩

theorem earleyComplete_col_inv (g : Grammar) (eps : List GSym)
    (chart : EChart) (col : Col) (st : EState)
    (hnd : (col.states.map EState.key).Nodup)
    (hok : ∀ t ∈ col.states, itemOk g eps t)
    (hpok : ∀ t ∈ (chartGet chart st.scol).states, itemOk g eps t)
    (hname : st.name ∈ eps) :
    ((earleyComplete chart col st).states.map EState.key).Nodup ∧
    ∀ t ∈ (earleyComplete chart col st).states, itemOk g eps t := by
  rw [earleyComplete_eq]
  refine ⟨foldl_add_nodup _ _ _ hnd, ?_⟩
  intro t ht
  rcases foldl_add_mem _ _ _ t ht with h | ⟨p, hp, rfl⟩
  · exact hok t h
  · have hpmem := List.mem_of_mem_filter hp
    have hpdot : p.at_dot = some st.name := by
      have := List.of_mem_filter hp
      simpa using this
    refine itemOk_ecol g eps _ _ ?_
    exact itemOk_advance g eps p st.name (hpok p hpmem) hpdot hname

theorem all_expr_eps (g : Grammar) (eps : List GSym) (st : EState)
    (hok : itemOk g eps st) (hfin : st.finished = true) :
    ∀ x ∈ st.expr, x ∈ eps := by
  obtain ⟨-, -, -, hpfx⟩ := hok
  intro x hx
  obtain ⟨n, hn⟩ := List.get?_of_mem hx
  have hlt : n < st.expr.length := (List.get?_eq_some.mp hn).1
  have hdot : st.dot ≥ st.expr.length := by
    unfold EState.finished at hfin
    exact of_decide_eq_true hfin
  exact hpfx n x (by omega) hn

theorem fillStep_inv (g : Grammar) (ch : EChart) (ptr : Nat)
    (hk : ∀ ka ∈ g, isNt ka.1 = true)
    (hinv : c8Inv g (nullableFn g) ch) :
    c8Inv g (nullableFn g) (fillStep g (nullableFn g) ch 0 ptr) := by
  obtain ⟨hlen, hidx, hnd, hok⟩ := hinv
  unfold fillStep
  cases hget : (chartGet ch 0).states.get? ptr with
  | none => exact ⟨hlen, hidx, hnd, hok⟩
  | some st =>
      dsimp only []
      have hstmem : st ∈ (chartGet ch 0).states := List.get?_mem hget
      have hst := hok st hstmem
      split
      · rename_i hfin
        have hs0 : st.scol = 0 := hst.1
        have hname : st.name ∈ nullableFn g :=
          nullable_closed g st.name st.expr hk hst.2.1
            (all_expr_eps g (nullableFn g) st hst hfin)
        have hcc := earleyComplete_col_inv g (nullableFn g) ch
          (chartGet ch 0) st hnd hok (by rw [hs0]; exact hok) hname
        refine ⟨by rw [chartSet_length]; exact hlen, ?_, ?_, ?_⟩
        · rw [chartGet_set_self _ _ _ (by omega),
            earleyComplete_index]
          exact hidx
        · rw [chartGet_set_self _ _ _ (by omega)]
          exact hcc.1
        · rw [chartGet_set_self _ _ _ (by omega)]
          exact hcc.2
      · split
        · exact ⟨hlen, hidx, hnd, hok⟩
        · rename_i sym heq
          split
          · have hcc := predict_col_inv g (nullableFn g) (chartGet ch 0)
              sym st hidx hnd hok hst heq
            refine ⟨by rw [chartSet_length]; exact hlen, ?_, ?_, ?_⟩
            · rw [chartGet_set_self _ _ _ (by omega), predict_index]
              exact hidx
            · rw [chartGet_set_self _ _ _ (by omega)]
              exact hcc.1
            · rw [chartGet_set_self _ _ _ (by omega)]
              exact hcc.2
          · split
            · exact ⟨hlen, hidx, hnd, hok⟩
            · rename_i hge
              exact absurd (by omega) hge

theorem fillStep_procd (g : Grammar) (eps : List GSym) (ch : EChart)
    (ptr : Nat) (st : EState) (hlen : ch.length = 1)
    (hidx : (chartGet ch 0).index = 0)
    (hget : (chartGet ch 0).states.get? ptr = some st) :
    procdP g eps (chartGet (fillStep g eps ch 0 ptr) 0) st := by
  unfold fillStep
  rw [hget]
  dsimp only []
  split
  · rename_i hfin
    unfold procdP
    rw [at_dot_none_of_finished st hfin]
    trivial
  · split
    · rename_i hdot
      unfold procdP
      rw [hdot]
      trivial
    · rename_i sym hdot
      split
      · rename_i hgm
        rw [chartGet_set_self _ _ _ (by omega)]
        unfold procdP
        rw [hdot]
        intro _
        rw [predict_eq, hidx]
        constructor
        · intro alt halt
          have hbase : keyIn (predItem sym 0 alt)
              ((gAlts g sym).foldl
                (fun c a2 => c.add (predItem sym 0 a2)) (chartGet ch 0)) :=
            foldl_add_keyIn (gAlts g sym) (predItem sym 0) (chartGet ch 0)
              alt halt
          by_cases hc : eps.contains sym
          · rw [if_pos hc]
            exact keyIn_app _ _ _ (add_ex _ st.advance) hbase
          · rw [if_neg hc]
            exact hbase
        · intro heps
          have hc : eps.contains sym = true := List.elem_eq_true_of_mem heps
          rw [if_pos hc]
          exact add_keyIn_self _ st.advance
      · rename_i hgm
        split
        · unfold procdP
          rw [hdot]
          intro hgm2
          exact absurd hgm2 hgm
        · rename_i hge
          exact absurd (by omega) hge

theorem procdP_app (g : Grammar) (eps : List GSym) (c c2 : Col) (st : EState)
    (hext : ∃ ext, c2.states = c.states ++ ext)
    (h : procdP g eps c st) : procdP g eps c2 st := by
  unfold procdP at h ⊢
  cases hd : st.at_dot with
  | none => trivial
  | some sym =>
      rw [hd] at h
      intro hgm
      obtain ⟨h1, h2⟩ := h hgm
      exact ⟨fun alt halt => keyIn_app _ _ _ hext (h1 alt halt),
             fun heps => keyIn_app _ _ _ hext (h2 heps)⟩

theorem fillCol_eq_succ (g : Grammar) (eps : List GSym) (fuel : Nat)
    (ch : EChart) (i ptr : Nat) :
    fillCol g eps (fuel + 1) ch i ptr =
      if ptr < (chartGet ch i).states.length then
        fillCol g eps fuel (fillStep g eps ch i ptr) i (ptr + 1)
      else ch := rfl

theorem fillCol_app0 (g : Grammar) (eps : List GSym) :
    ∀ (fuel : Nat) (ch : EChart) (ptr : Nat), ch.length = 1 →
    ∃ ext, (chartGet (fillCol g eps fuel ch 0 ptr) 0).states =
      (chartGet ch 0).states ++ ext := by
  intro fuel
  induction fuel with
  | zero =>
      intro ch ptr _
      exact ⟨[], by simp [fillCol]⟩
  | succ f ih =>
      intro ch ptr hlen
      rw [fillCol_eq_succ]
      by_cases hlt : ptr < (chartGet ch 0).states.length
      · rw [if_pos hlt]
        obtain ⟨e1, h1⟩ := fillStep_app0 g eps ch ptr hlen
        obtain ⟨e2, h2⟩ := ih (fillStep g eps ch 0 ptr) (ptr + 1)
          (by rw [fillStep_length]; exact hlen)
        exact ⟨e1 ++ e2, by rw [h2, h1, List.append_assoc]⟩
      · rw [if_neg hlt]
        exact ⟨[], by simp⟩

theorem fillCol_inv (g : Grammar) (hk : ∀ ka ∈ g, isNt ka.1 = true) :
    ∀ (fuel : Nat) (ch : EChart) (ptr : Nat),
    c8Inv g (nullableFn g) ch →
    c8Inv g (nullableFn g) (fillCol g (nullableFn g) fuel ch 0 ptr) := by
  intro fuel
  induction fuel with
  | zero => intro ch ptr h; exact h
  | succ f ih =>
      intro ch ptr h
      rw [fillCol_eq_succ]
      by_cases hlt : ptr < (chartGet ch 0).states.length
      · rw [if_pos hlt]
        exact ih _ _ (fillStep_inv g ch ptr hk h)
      · rw [if_neg hlt]
        exact h

theorem fillCol_drain (g : Grammar) (hk : ∀ ka ∈ g, isNt ka.1 = true) :
    ∀ (fuel : Nat) (ch : EChart) (ptr : Nat),
    c8Inv g (nullableFn g) ch →
    (∀ k st2, k < ptr → (chartGet ch 0).states.get? k = some st2 →
      procdP g (nullableFn g) (chartGet ch 0) st2) →
    stateBound g + 1 ≤ fuel + ptr →
    ∀ st ∈ (chartGet (fillCol g (nullableFn g) fuel ch 0 ptr) 0).states,
      procdP g (nullableFn g)
        (chartGet (fillCol g (nullableFn g) fuel ch 0 ptr) 0) st := by
  intro fuel
  induction fuel with
  | zero =>
      intro ch ptr hinv hpre hfuel st hst
      obtain ⟨n, hn⟩ := List.get?_of_mem hst
      have hlt : n < (chartGet ch 0).states.length := (List.get?_eq_some.mp hn).1
      have hbd := col_length_bound g (nullableFn g) ch hinv
      exact hpre n st (by omega) hn
  | succ f ih =>
      intro ch ptr hinv hpre hfuel st hst
      rw [fillCol_eq_succ] at hst ⊢
      by_cases hlt : ptr < (chartGet ch 0).states.length
      · rw [if_pos hlt] at hst ⊢
        refine ih (fillStep g (nullableFn g) ch 0 ptr) (ptr + 1)
          (fillStep_inv g ch ptr hk hinv) ?_ (by omega) st hst
        intro k st2 hk2 hget2
        obtain ⟨ext, hext⟩ := fillStep_app0 g (nullableFn g) ch ptr hinv.1
        have hklt : k < (chartGet ch 0).states.length := by omega
        rw [hext, List.get?_append hklt] at hget2
        by_cases hke : k = ptr
        · subst hke
          exact fillStep_procd g (nullableFn g) ch k st2 hinv.1 hinv.2.1 hget2
        · refine procdP_app g (nullableFn g) (chartGet ch 0) _ st2
            ⟨ext, hext⟩ ?_
          exact hpre k st2 (by omega) hget2
      · rw [if_neg hlt] at hst ⊢
        obtain ⟨n, hn⟩ := List.get?_of_mem hst
        have hnlt : n < (chartGet ch 0).states.length := (List.get?_eq_some.mp hn).1
        exact hpre n st (by omega) hn

theorem chartParse_empty (g : Grammar) (eps : List GSym) (fuel : Nat)
    (start : GSym) :
    chartParse g eps fuel [] start (gAlts g start) =
      fillCol g eps fuel [seedCol g start] 0 0 := rfl

theorem seed_inv (g : Grammar) (eps : List GSym) (start : GSym) :
    c8Inv g eps [seedCol g start] := by
  refine ⟨rfl, ?_, ?_, ?_⟩
  · show (seedCol g start).index = 0
    unfold seedCol
    exact foldl_add_index _ _ (fun c a => Col.add_index c _) _
  · show ((seedCol g start).states.map EState.key).Nodup
    unfold seedCol
    exact foldl_add_nodup _ (fun alt => startItem0 start alt 0) _
      List.nodup_nil
  · intro st hst
    have hmem := foldl_add_mem (gAlts g start)
      (fun alt => startItem0 start alt 0)
      { index := 0, letter := none, states := [] } st hst
    rcases hmem with h | ⟨alt, halt, rfl⟩
    · cases h
    · exact itemOk_ecol g eps _ _
        ⟨rfl, halt, Nat.zero_le _, fun j x hj _ => absurd hj (Nat.not_lt_zero j)⟩

theorem seed_keyIn (g : Grammar) (start : GSym) (alt : List GSym)
    (halt : alt ∈ gAlts g start) :
    keyIn (startItem0 start alt 0) (seedCol g start) := by
  unfold seedCol
  exact foldl_add_keyIn (gAlts g start) (fun a => startItem0 start a 0) _
    alt halt

theorem key_fields (t : EState) (nm : GSym) (e : List GSym) (d sc : Nat)
    (h : t.key = (nm, e, d, sc)) :
    t.name = nm ∧ t.expr = e ∧ t.dot = d ∧ t.scol = sc := by
  unfold EState.key at h
  rw [Prod.mk.injEq, Prod.mk.injEq, Prod.mk.injEq] at h
  exact ⟨h.1, h.2.1, h.2.2.1, h.2.2.2⟩

theorem chain_keyIn (g : Grammar) (eps : List GSym) (col : Col)
    (start : GSym) (a : List GSym)
    (hproc : ∀ st ∈ col.states, procdP g eps col st)
    (hseed : keyIn (startItem0 start a 0) col)
    (hall : ∀ s ∈ a, s ∈ eps ∧ gMem g s = true) :
    ∀ j, j ≤ a.length → keyIn (startItem0 start a j) col := by
  intro j
  induction j with
  | zero => intro _; exact hseed
  | succ n ihn =>
      intro hle
      obtain ⟨t, ht, htk⟩ := ihn (by omega)
      obtain ⟨hn1, hn2, hn3, hn4⟩ := key_fields t start a n 0 htk
      have hs : a.get? n = some (a.get ⟨n, by omega⟩) :=
        List.get?_eq_get (by omega)
      set s := a.get ⟨n, by omega⟩ with hsdef
      have hsa : s ∈ a := List.get?_mem hs
      have htdot : t.at_dot = some s := by
        unfold EState.at_dot
        rw [hn2, hn3]
        exact hs
      have hT := hproc t ht
      unfold procdP at hT
      rw [htdot] at hT
      obtain ⟨-, h2⟩ := hT (hall s hsa).2
      obtain ⟨u, hu, huk⟩ := h2 (hall s hsa).1
      refine ⟨u, hu, ?_⟩
      rw [huk]
      show (t.advance.name, t.advance.expr, t.advance.dot, t.advance.scol) =
        (start, a, n + 1, 0)
      unfold EState.advance
      simp only []
      rw [hn1, hn2, hn3, hn4]

theorem echart_single (ch : EChart) (h : ch.length = 1) :
    ch = [chartGet ch 0] := by
  cases ch with
  | nil => cases h
  | cons c rest =>
      cases rest with
      | nil => rfl
      | cons d r2 => simp at h

theorem c8_complete (g : Grammar) (start : GSym)
    (hk : ∀ ka ∈ g, isNt ka.1 = true) (hnd : (gKeys g).Nodup)
    (hnul : start ∈ nullableFn g) :
    ∃ r, recognizeOn g true [] start = .ok r := by
  have htabeq : (parsePfx g [] start).2.2 =
      fillCol g (nullableFn g) (defaultFuel g (List.length ([] : List Char)))
        [seedCol g start] 0 0 := by
    rw [parsePfx_table, chartParse_empty]
  have hinv : c8Inv g (nullableFn g) (parsePfx g [] start).2.2 := by
    rw [htabeq]
    exact fillCol_inv g hk _ _ 0 (seed_inv g (nullableFn g) start)
  have hdrain : ∀ st ∈ (chartGet (parsePfx g [] start).2.2 0).states,
      procdP g (nullableFn g) (chartGet (parsePfx g [] start).2.2 0) st := by
    rw [htabeq]
    refine fillCol_drain g hk _ _ 0 (seed_inv g (nullableFn g) start) ?_ ?_
    · intro k st2 hk2 _
      exact absurd hk2 (Nat.not_lt_zero k)
    · unfold defaultFuel
      simp only [List.length_nil]
      omega
  obtain ⟨a, haalt, hall⟩ := nullable_gives_alt g start hnd hnul
  have hseedT : keyIn (startItem0 start a 0)
      (chartGet (parsePfx g [] start).2.2 0) := by
    rw [htabeq]
    obtain ⟨ext, hext⟩ := fillCol_app0 g (nullableFn g)
      (defaultFuel g (List.length ([] : List Char))) [seedCol g start] 0 rfl
    exact keyIn_app _ _ _ ⟨ext, hext⟩ (seed_keyIn g start a haalt)
  obtain ⟨t, ht, htk⟩ := chain_keyIn g (nullableFn g)
    (chartGet (parsePfx g [] start).2.2 0) start a hdrain hseedT hall
    a.length (Nat.le_refl _)
  obtain ⟨h1, h2, h3, h4⟩ := key_fields t start a a.length 0 htk
  have htfin : t.finished = true := by
    unfold EState.finished
    rw [h3, h2]
    simp
  have hcs : t ∈ colStartItems g start (chartGet (parsePfx g [] start).2.2 0) := by
    unfold colStartItems
    refine List.mem_filter.mpr ⟨ht, ?_⟩
    simp only [h1, h2, h4, Bool.and_eq_true, decide_eq_true_eq]
    exact ⟨⟨trivial, List.elem_eq_true_of_mem haalt⟩, trivial⟩
  have hlen1 : (parsePfx g [] start).2.2.length = 1 := by
    rw [htabeq, fillCol_length]
    rfl
  have hsingle := echart_single _ hlen1
  rcases parsePfx_cases g [] start with ⟨hn, -, -⟩ | ⟨i, sts, hh, hcur, hsts⟩
  · exfalso
    rw [pfxSearch_none_iff] at hn
    have hmem : chartGet (parsePfx g [] start).2.2 0 ∈
        (parsePfx g [] start).2.2.reverse := by
      rw [List.mem_reverse, hsingle]
      exact List.mem_singleton.mpr rfl
    have := hn _ hmem
    rw [this] at hcs
    cases hcs
  · obtain ⟨pre, col, post, hsplit, -, hcol, hne, hi⟩ :=
      pfxSearch_some g start _ i sts hh
    have hcolmem : col ∈ (parsePfx g [] start).2.2 := by
      rw [← List.mem_reverse, hsplit]
      exact List.mem_append.mpr (Or.inr (List.mem_cons_self _ _))
    have hcoleq : col = chartGet (parsePfx g [] start).2.2 0 := by
      rw [hsingle] at hcolmem
      exact List.mem_singleton.mp hcolmem
    have hts : t ∈ sts := by
      rw [← hcol, hcoleq]
      exact hcs
    have hi0 : i = 0 := by
      rw [hi, hcoleq]
      exact hinv.2.1
    refine ⟨((parsePfx g [] start).2.1.filter (fun s => s.finished),
      (parsePfx g [] start).2.2), ?_⟩
    rw [recognizeOn_eq]
    rw [if_neg ?_]
    simp only [Bool.true_and, Bool.or_eq_true, not_or]
    constructor
    · rw [hcur, hi0]
      simp
    · rw [hsts]
      simp only [List.isEmpty_eq_true]
      intro hc
      have : t ∈ sts.filter (fun s => s.finished) :=
        List.mem_filter.mpr ⟨hts, htfin⟩
      rw [hc] at this
      cases this

theorem c8_sound (g : Grammar) (start : GSym)
    (hk : ∀ ka ∈ g, isNt ka.1 = true) (r : List EState × EChart)
    (hr : recognizeOn g true [] start = .ok r) : start ∈ nullableFn g := by
  rw [recognizeOn_eq] at hr
  by_cases hcond : ((parsePfx g [] start).1 <
        ((List.length ([] : List Char) : Nat) : Int) ||
      ((parsePfx g [] start).2.1.filter (fun s => s.finished)).isEmpty)
  · rw [if_pos (by simpa using hcond)] at hr
    cases hr
  · have hcond2 := hcond
    simp only [Bool.or_eq_true, not_or] at hcond2
    obtain ⟨-, hfne⟩ := hcond2
    simp only [List.isEmpty_eq_true] at hfne
    obtain ⟨t, htf⟩ := List.exists_mem_of_ne_nil _ hfne
    have hts : t ∈ (parsePfx g [] start).2.1 := List.mem_of_mem_filter htf
    have htfin : t.finished = true := by
      have := List.of_mem_filter htf
      simpa using this
    have htabeq : (parsePfx g [] start).2.2 =
        fillCol g (nullableFn g) (defaultFuel g (List.length ([] : List Char)))
          [seedCol g start] 0 0 := by
      rw [parsePfx_table, chartParse_empty]
    have hinv : c8Inv g (nullableFn g) (parsePfx g [] start).2.2 := by
      rw [htabeq]
      exact fillCol_inv g hk _ _ 0 (seed_inv g (nullableFn g) start)
    have hlen1 : (parsePfx g [] start).2.2.length = 1 := by
      rw [htabeq, fillCol_length]
      rfl
    have hsingle := echart_single _ hlen1
    rcases parsePfx_cases g [] start with ⟨-, -, hs⟩ | ⟨i, sts, hh, -, hsts⟩
    · rw [hs] at hts
      cases hts
    · obtain ⟨pre, col, post, hsplit, -, hcol, -, -⟩ :=
        pfxSearch_some g start _ i sts hh
      have hcolmem : col ∈ (parsePfx g [] start).2.2 := by
        rw [← List.mem_reverse, hsplit]
        exact List.mem_append.mpr (Or.inr (List.mem_cons_self _ _))
      have hcoleq : col = chartGet (parsePfx g [] start).2.2 0 := by
        rw [hsingle] at hcolmem
        exact List.mem_singleton.mp hcolmem
      have htcs : t ∈ colStartItems g start
          (chartGet (parsePfx g [] start).2.2 0) := by
        rw [← hcoleq, hcol]
        rw [hsts] at hts
        exact hts
      have htstates : t ∈ (chartGet (parsePfx g [] start).2.2 0).states := by
        unfold colStartItems at htcs
        exact List.mem_of_mem_filter htcs
      have hstart := colStartItems_mem g start _ t htcs
      have hok := hinv.2.2.2 t htstates
      have hexpr : ∀ x ∈ t.expr, x ∈ nullableFn g :=
        all_expr_eps g (nullableFn g) t hok htfin
      have := nullable_closed g start t.expr hk (hstart.1 ▸ hstart.2.1) hexpr
      exact this

/-- C8: for every grammar whose keys are `<...>`-nonterminals (unique, as in
a Python dict), the Earley recognizer accepts the empty input iff the start
symbol is in the `nullable` set computed by the code. -/
theorem C8_empty_iff_nullable (g : Grammar) (start : GSym)
    (hk : ∀ ka ∈ g, isNt ka.1 = true) (hnd : (gKeys g).Nodup) :
    (∃ r, recognizeOn g true [] start = .ok r) ↔ start ∈ nullableFn g := by
  constructor
  · rintro ⟨r, hr⟩
    exact c8_sound g start hk r hr
  · exact c8_complete g start hk hnd

theorem C8_empty_iff_nullable_witness :
    "<S>" ∈ nullableFn gW8 ∧ ∃ r, recognizeOn gW8 true [] "<S>" = .ok r :=
  ⟨by decide,
   (C8_empty_iff_nullable gW8 "<S>" (by decide) (by decide)).mpr (by decide)⟩
